import Mathlib

/-!
# Verification of cargo-scan core (effect model, resolver composition, audit chain)

Shallow embedding of the Rust sources:
  * `src/src/effect.rs`   — `SrcLoc`, `Effect`, `EffectInstance`, `FnDec`, `EffectBlock`
  * `src/src/resolve.rs`  — `FileResolver` composition over a precise resolver and
                            the heuristic backup (`HackyResolver`)
  * `src/src/bin/chain.rs`— dependency-graph construction, post-order traversal,
                            policy synthesis and persistence

Rust `usize` values are modelled as `Nat`; filesystem paths as component lists
or plain strings; fallible operations return `Except`; stderr output and the
per-run filesystem are passed explicitly.  Parts of the repository that are
referenced but whose sources are not included (identifier/sink internals,
`PolicyFile` serialization, `AuditChain::read_policy`) are modelled from the
specification and marked as such in their doc comments.
-/

/-! ## Identifier model (`CanonicalPath`, `Ident`, `Path`, `Sink`)

Modelled from the spec: `ident.rs` / `sink.rs` are not part of the included
sources.  A `CanonicalPath` is an immutable fully-qualified identifier with
structural equality, so it is modelled as a string; likewise `Path` (a possibly
non-canonical syntactic path), `Ident` and `IdentPath`.  A `Sink` is a named
pattern a callee path can match. -/

abbrev CanonicalPath := String

abbrev RsPath := String

abbrev RsIdent := String

abbrev IdentPath := String

abbrev Sink := String

/-- Modelled from the spec: `CanonicalPath::to_path` forgets canonicality and
returns the underlying syntactic path (`ident.rs` is not in the sources). -/
def CanonicalPath.to_path (c : CanonicalPath) : RsPath := c

/-- Modelled from the spec: `Sink::new_match` (from `sink.rs`, not in the
sources) looks the callee path up in the configured sink-pattern set and
returns the matched pattern value (not just a boolean).  We model a pattern as
matching when it equals the callee path or is a `::`-prefix of it, and return
the first matching pattern of the list. -/
def Sink.new_match (callee : CanonicalPath) (sinks : List IdentPath) : Option Sink :=
  sinks.find? (fun pat => pat == callee || (pat ++ "::").data.isPrefixOf callee.data)

/-! ## Source locations (`SrcLoc`, from `effect.rs`) -/

/-- A filesystem path, as a list of components (last component = file name). -/
abbrev FsFilePath := List String

/-- `filepath.parent()` — all components but the last. -/
def FsFilePath.parent (p : FsFilePath) : List String := p.dropLast

/-- `filepath.file_name()` — the last component (defaulting to `""`;
the Rust code unwraps here). -/
def FsFilePath.file_name (p : FsFilePath) : String := p.getLastD ""

/-- A `proc_macro2` span, carrying start/end line and column.  This is the
data `SrcLoc::from_span` extracts from any `Spanned` syntax node. -/
structure Span where
  start_line : Nat
  start_col : Nat
  end_line : Nat
  end_col : Nat
deriving DecidableEq, Repr

/-- `SrcLoc` from `effect.rs`: directory, file, and position range. -/
structure SrcLoc where
  dir : List String
  file : String
  start_line : Nat
  start_col : Nat
  end_line : Nat
  end_col : Nat
deriving DecidableEq, Repr

namespace SrcLoc

/-- `SrcLoc::new` from `effect.rs`. -/
def new (filepath : FsFilePath) (start_line start_col end_line end_col : Nat) :
    SrcLoc :=
  { dir := filepath.parent
    file := filepath.file_name
    start_line := start_line
    start_col := start_col
    end_line := end_line
    end_col := end_col }

/-- `SrcLoc::from_span` from `effect.rs`. -/
def from_span (filepath : FsFilePath) (span : Span) : SrcLoc :=
  SrcLoc.new filepath span.start_line span.start_col span.end_line span.end_col

/-- `SrcLoc::sub1` from `effect.rs`: clone, then decrement both line fields. -/
def sub1 (l : SrcLoc) : SrcLoc :=
  { l with start_line := l.start_line - 1, end_line := l.end_line - 1 }

/-- `SrcLoc::add1` from `effect.rs`: increment the start column.  The Rust
method mutates the receiver; we model it as returning the updated value. -/
def add1 (l : SrcLoc) : SrcLoc :=
  { l with start_col := l.start_col + 1 }

end SrcLoc

/-! ## Effects (`Effect`, `EffectInstance`, from `effect.rs`) -/

/-- The `Effect` enum from `effect.rs`. -/
inductive Effect where
  | SinkCall (s : Sink)
  | FFICall (p : CanonicalPath)
  | UnsafeCall (p : CanonicalPath)
  | RawPointer (p : CanonicalPath)
  | UnionField (p : CanonicalPath)
  | StaticMut (p : CanonicalPath)
  | StaticExt (p : CanonicalPath)
  | FnPtrCreation
  | ClosureCreation
deriving DecidableEq, Repr

/-- `EffectInstance` from `effect.rs`. -/
structure EffectInstance where
  caller : CanonicalPath
  call_loc : SrcLoc
  callee : CanonicalPath
  eff_type : Effect
deriving DecidableEq, Repr

namespace EffectInstance

/-- `EffectInstance::new_call` from `effect.rs`: classify a call site,
checking the sink-pattern match first, then the FFI marker, then the unsafe
marker; a call matching none of the three yields no effect.  (The `debug!`
log lines in the double-match branches are advisory only and carry no data
used by the result, so they are not modelled.) -/
def new_call (filepath : FsFilePath) (caller : CanonicalPath)
    (callee : CanonicalPath) (callsite : Span) ( is_unsafe : Bool)
    (ffi : Option CanonicalPath) (sinks : List IdentPath) :
    Option EffectInstance :=
  let call_loc := SrcLoc.from_span filepath callsite
  let eff_type : Option Effect :=
    match Sink.new_match callee sinks with
    | some pat => some (Effect.SinkCall pat)
    | none =>
      match ffi with
      | some f => some (Effect.FFICall f)
      | none => if is_unsafe then some (Effect.UnsafeCall callee) else none
  match eff_type with
  | some t =>
    some { caller := caller, call_loc := call_loc, callee := callee, eff_type := t }
  | none => none

/-- `EffectInstance::new_effect` from `effect.rs`. -/
def new_effect (filepath : FsFilePath) (caller : CanonicalPath)
    (callee : CanonicalPath) (eff_site : Span) (eff_type : Effect) :
    EffectInstance :=
  { caller := caller
    call_loc := SrcLoc.from_span filepath eff_site
    callee := callee
    eff_type := eff_type }

end EffectInstance

/-! ## Effect blocks (`Visibility`, `FnDec`, `BlockType`, `EffectBlock`) -/

/-- `Visibility` from `effect.rs`. -/
inductive Visibility where
  | Public
  | Private
deriving DecidableEq, Repr

/-- `FnDec` from `effect.rs`. -/
structure FnDec where
  src_loc : SrcLoc
  fn_name : CanonicalPath
  vis : Visibility
deriving DecidableEq, Repr

/-- `FnDec::new` from `effect.rs`. -/
def FnDec.new (filepath : FsFilePath) (decl_span : Span)
    (fn_name : CanonicalPath) (vis : Visibility) : FnDec :=
  { src_loc := SrcLoc.from_span filepath decl_span, fn_name := fn_name, vis := vis }

/-- `BlockType` from `effect.rs`. -/
inductive BlockType where
  | UnsafeExpr
  | NormalFn
  | UnsafeFn
deriving DecidableEq, Repr

/-- `EffectBlock` from `effect.rs`. -/
structure EffectBlock where
  src_loc : SrcLoc
  block_type : BlockType
  effects : List EffectInstance
  containing_fn : FnDec
deriving DecidableEq, Repr

namespace EffectBlock

/-- `EffectBlock::new_unsafe_expr` from `effect.rs`. -/
def new_unsafe_expr (filepath : FsFilePath) (block_span : Span)
    (containing_fn : FnDec) : EffectBlock :=
  { src_loc := SrcLoc.from_span filepath block_span
    block_type := BlockType.UnsafeExpr
    effects := []
    containing_fn := containing_fn }

/-- `EffectBlock::from_fn_decl` from `effect.rs`. -/
def from_fn_decl (fn_decl : FnDec) : EffectBlock :=
  { src_loc := fn_decl.src_loc
    block_type := BlockType.NormalFn
    effects := []
    containing_fn := fn_decl }

/-- `EffectBlock::push_effect` from `effect.rs`. -/
def push_effect (b : EffectBlock) (effect : EffectInstance) : EffectBlock :=
  { b with effects := b.effects ++ [effect] }

/-- `EffectBlock::from_effect` from `effect.rs`. -/
def from_effect (eff : EffectInstance) (containing_fn : FnDec) : EffectBlock :=
  (from_fn_decl containing_fn).push_effect eff

/-- `EffectBlock::new_fn` from `effect.rs`. -/
def new_fn (filepath : FsFilePath) (decl_span : Span)
    (fn_name : CanonicalPath) (vis : Visibility) : EffectBlock :=
  { src_loc := SrcLoc.from_span filepath decl_span
    block_type := BlockType.NormalFn
    effects := []
    containing_fn := FnDec.new filepath decl_span fn_name vis }

/-- `EffectBlock::new_unsafe_fn` from `effect.rs` (note: its body sets
`block_type` to `BlockType::NormalFn`, exactly as `new_fn` does). -/
def new_unsafe_fn (filepath : FsFilePath) (decl_span : Span)
    (fn_name : CanonicalPath) (vis : Visibility) : EffectBlock :=
  { src_loc := SrcLoc.from_span filepath decl_span
    block_type := BlockType.NormalFn
    effects := []
    containing_fn := FnDec.new filepath decl_span fn_name vis }

/-- `EffectBlock::filter_effects` from `effect.rs`: partition the owned
effects by `f`, keep the `true` part in the block and return the `false`
part.  The Rust method mutates the receiver and returns the removed vector;
we model it as returning the updated block together with that vector. -/
def filter_effects (b : EffectBlock) (f : EffectInstance → Bool) :
    EffectBlock × List EffectInstance :=
  let parts := b.effects.partition f
  ({ b with effects := parts.1 }, parts.2)

end EffectBlock

/-! ## Resolution engine (`resolve.rs`)

`syn` syntax nodes are modelled by the data the resolver actually consumes:
an identifier carries its name and span; a path carries its segments; the
other item kinds are opaque payloads that are only passed through to the
heuristic resolver. -/

/-- A `syn::Ident`: its string and its span. -/
structure SynIdent where
  name : String
  span : Span
deriving DecidableEq, Repr

/-- A `syn::Path`: its segment identifiers. -/
structure SynPath where
  segments : List SynIdent
deriving DecidableEq, Repr

/-- A `syn::ItemImpl`, opaque to this development. -/
structure SynItemImpl where
  tag : Nat
deriving DecidableEq, Repr

/-- A `syn::ItemUse`, opaque to this development. -/
structure SynItemUse where
  tag : Nat
deriving DecidableEq, Repr

/-- A `syn::ForeignItemFn`, opaque to this development. -/
structure SynForeignItemFn where
  tag : Nat
deriving DecidableEq, Repr

/-- Modelled from the spec: `Ident::from_syn` (from `ident.rs`, not in the
sources) extracts the identifier string from a `syn::Ident`. -/
def Ident.from_syn (i : SynIdent) : RsIdent := i.name

/-- The precise resolver (`name_resolution.rs::Resolver`, not in the
sources).  Modelled from the spec: a stateless per-identifier oracle over the
project-wide semantic index — a function from a source location and an
identifier to a canonical path or a typed failure. -/
abbrev Resolver := SrcLoc → RsIdent → Except String CanonicalPath

/-- The error produced by `FileResolver::resolve_core`: the underlying
resolver failure, wrapped (via `with_context`) with the queried source
location and identifier. -/
structure ResolutionErr where
  loc : SrcLoc
  ident : RsIdent
  cause : String
deriving DecidableEq, Repr

/-- One line written to stderr by `FileResolver::resolve_or_else`. -/
inductive LogEntry where
  /-- The warning line reporting a precise-resolution failure (it carries
  the wrapped error, hence the failure cause and the source location). -/
  | resolutionFailed (err : ResolutionErr)
  /-- The accompanying note that the backup resolver is being used. -/
  | fallingBack
deriving DecidableEq, Repr

/-- Whether a log entry is the resolution-failure warning. -/
def LogEntry.isWarning : LogEntry → Bool
  | .resolutionFailed _ => true
  | .fallingBack => false

/-- The operations of `HackyResolver` (`hacky_resolver.rs`, not in the
sources), abstracted over its state type `H`.  Modelled from the spec: the
heuristic resolver is a mutable, stateful collaborator with resolution
functions, an FFI lookup and scope-tracking mutators; its internals are
irrelevant to the composition claims, so they stay abstract. -/
structure HackyOps (H : Type) where
  resolve_ident : H → SynIdent → RsPath
  resolve_path : H → SynPath → RsPath
  resolve_def : H → SynIdent → CanonicalPath
  resolve_ffi : H → SynPath → Option CanonicalPath
  push_mod : H → SynIdent → H
  pop_mod : H → H
  push_impl : H → SynItemImpl → H
  pop_impl : H → H
  push_fn : H → SynIdent → H
  pop_fn : H → H
  scan_use : H → SynItemUse → H
  scan_foreign_fn : H → SynForeignItemFn → H

/-- `FileResolver` from `resolve.rs`: a file path, the precise resolver and
the heuristic backup resolver. -/
structure FileResolver (H : Type) where
  filepath : FsFilePath
  resolver : Resolver
  backup : H

namespace FileResolver

variable {H : Type} {U : Type}

/-- `FileResolver::resolve_core` from `resolve.rs`: take the identifier
span, apply `add1` to it, and consult the precise resolver; a failure is
wrapped with the queried location and identifier (the `with_context` call). -/
def resolve_core (fr : FileResolver H) (i : SynIdent) :
    Except ResolutionErr CanonicalPath :=
  let s := (SrcLoc.from_span fr.filepath i.span).add1
  let id := Ident.from_syn i
  match fr.resolver s id with
  | .ok result => .ok result
  | .error e => .error { loc := s, ident := id, cause := e }

/-- `FileResolver::resolve_or_else` from `resolve.rs`.  The two `eprintln!`
calls of the failure branch are modelled as the emitted log entries; the
Rust function returns only `U`, with stderr as a side effect. -/
def resolve_or_else (fr : FileResolver H) (i : SynIdent)
    (f : CanonicalPath → U) (g : Unit → U) : U × List LogEntry :=
  match fr.resolve_core i with
  | .ok res => (f res, [])
  | .error err => (g (), [.resolutionFailed err, .fallingBack])

/-- `<FileResolver as Resolve>::resolve_ident` from `resolve.rs`. -/
def resolve_ident (ops : HackyOps H) (fr : FileResolver H) (i : SynIdent) :
    RsPath × List LogEntry :=
  fr.resolve_or_else i CanonicalPath.to_path (fun _ => ops.resolve_ident fr.backup i)

/-- `<FileResolver as Resolve>::resolve_path` from `resolve.rs`: resolve the
last segment identifier of the path (the Rust code unwraps it; we default to
an empty identifier). -/
def resolve_path (ops : HackyOps H) (fr : FileResolver H) (p : SynPath) :
    RsPath × List LogEntry :=
  let i := p.segments.getLastD { name := "", span := ⟨0, 0, 0, 0⟩ }
  fr.resolve_or_else i CanonicalPath.to_path (fun _ => ops.resolve_path fr.backup p)

/-- `<FileResolver as Resolve>::resolve_def` from `resolve.rs`. -/
def resolve_def (ops : HackyOps H) (fr : FileResolver H) (i : SynIdent) :
    CanonicalPath × List LogEntry :=
  fr.resolve_or_else i (fun p => p) (fun _ => ops.resolve_def fr.backup i)

/-- `<FileResolver as Resolve>::resolve_ffi` from `resolve.rs`: delegate to
the backup resolver (the comment in the source defers a precise-resolver
implementation). -/
def resolve_ffi (ops : HackyOps H) (fr : FileResolver H) (p : SynPath) :
    Option CanonicalPath :=
  ops.resolve_ffi fr.backup p

/-- `<FileResolver as Resolve>::push_mod` from `resolve.rs`. -/
def push_mod (ops : HackyOps H) (fr : FileResolver H) (mod_ident : SynIdent) :
    FileResolver H :=
  { fr with backup := ops.push_mod fr.backup mod_ident }

/-- `<FileResolver as Resolve>::pop_mod` from `resolve.rs`. -/
def pop_mod (ops : HackyOps H) (fr : FileResolver H) : FileResolver H :=
  { fr with backup := ops.pop_mod fr.backup }

/-- `<FileResolver as Resolve>::push_impl` from `resolve.rs`. -/
def push_impl (ops : HackyOps H) (fr : FileResolver H) (impl_stmt : SynItemImpl) :
    FileResolver H :=
  { fr with backup := ops.push_impl fr.backup impl_stmt }

/-- `<FileResolver as Resolve>::pop_impl` from `resolve.rs`. -/
def pop_impl (ops : HackyOps H) (fr : FileResolver H) : FileResolver H :=
  { fr with backup := ops.pop_impl fr.backup }

/-- `<FileResolver as Resolve>::push_fn` from `resolve.rs`. -/
def push_fn (ops : HackyOps H) (fr : FileResolver H) (fn_ident : SynIdent) :
    FileResolver H :=
  { fr with backup := ops.push_fn fr.backup fn_ident }

/-- `<FileResolver as Resolve>::pop_fn` from `resolve.rs`. -/
def pop_fn (ops : HackyOps H) (fr : FileResolver H) : FileResolver H :=
  { fr with backup := ops.pop_fn fr.backup }

/-- `<FileResolver as Resolve>::scan_use` from `resolve.rs`. -/
def scan_use (ops : HackyOps H) (fr : FileResolver H) (use_stmt : SynItemUse) :
    FileResolver H :=
  { fr with backup := ops.scan_use fr.backup use_stmt }

/-- `<FileResolver as Resolve>::scan_foreign_fn` from `resolve.rs`. -/
def scan_foreign_fn (ops : HackyOps H) (fr : FileResolver H)
    (f : SynForeignItemFn) : FileResolver H :=
  { fr with backup := ops.scan_foreign_fn fr.backup f }

end FileResolver

/-! ## Audit chain (`bin/chain.rs`)

Lockfile packages, the dependency graph (a `petgraph::DiGraph<String, ()>`),
the post-order traversal, and the per-node policy synthesis loop.  The
filesystem holding policy files is passed explicitly as a map from path
strings to entries; `anyhow` errors are modelled as their list of context
frames, outermost first. -/

/-- A `cargo_lock::Dependency`: the name and version of a declared direct
dependency. -/
structure Dependency where
  name : String
  version : String
deriving DecidableEq, Repr

/-- The `{name}-{version}` key string used for graph nodes and policy
lookup (`format!("{}-{}", dep.name, dep.version)`). -/
def Dependency.key (d : Dependency) : String := d.name ++ "-" ++ d.version

/-- A `cargo_lock::Package` as consumed by `chain.rs`: name, version and
declared direct dependencies. -/
structure Package where
  name : String
  version : String
  dependencies : List Dependency
deriving DecidableEq, Repr

/-- The `{name}-{version}` key string of a package. -/
def Package.key (p : Package) : String := p.name ++ "-" ++ p.version

/-- A `petgraph::DiGraph<String, ()>`: node weights in index order, and
directed edges as pairs of node indices in insertion order. -/
structure DiGraph where
  nodes : List String
  edges : List (Nat × Nat)
deriving DecidableEq, Repr

namespace DiGraph

/-- `Graph::add_node`: append a node and return its index. -/
def add_node (g : DiGraph) (s : String) : DiGraph × Nat :=
  ({ g with nodes := g.nodes ++ [s] }, g.nodes.length)

/-- `Graph::add_edge` (edge weights are `()` and are dropped). -/
def add_edge (g : DiGraph) (a b : Nat) : DiGraph :=
  { g with edges := g.edges ++ [(a, b)] }

/-- The successor indices of a node: targets of its outgoing edges. -/
def succ (g : DiGraph) (u : Nat) : List Nat :=
  (g.edges.filter (fun e => e.1 == u)).map Prod.snd

/-- The edge relation of the graph. -/
def Edge (g : DiGraph) (a b : Nat) : Prop := (a, b) ∈ g.edges

/-- Reachability: the reflexive-transitive closure of the edge relation. -/
def Reach (g : DiGraph) : Nat → Nat → Prop := Relation.ReflTransGen g.Edge

/-- Acyclicity: no edge closes a cycle. -/
def Acyclic (g : DiGraph) : Prop := ∀ a b, g.Edge a b → g.Reach b a → False

end DiGraph

/-- The mutable state threaded through `make_dependency_graph`: the graph
under construction, the key-to-index map and the index-to-package map.
Both maps are association lists with newest binding first. -/
structure GraphBuild where
  graph : DiGraph
  node_map : List (String × Nat)
  package_map : List (Nat × Package)
deriving DecidableEq, Repr

/-- The `if !node_map.contains_key(..) { add_node; insert } ... get` pattern
of `make_dependency_graph`: return the existing index for a key, or add a
fresh node for it and return that. -/
def ensureNode (st : GraphBuild) (s : String) : GraphBuild × Nat :=
  match st.node_map.lookup s with
  | some i => (st, i)
  | none =>
    let gn := st.graph.add_node s
    ({ st with graph := gn.1, node_map := (s, gn.2) :: st.node_map }, gn.2)

/-- The body of the outer `for p in packages` loop of
`make_dependency_graph`: ensure the node of `p`, record `p` in the package
map, then for each declared dependency ensure its node and add an edge from
`p` to it. -/
def processPackage (st : GraphBuild) (p : Package) : GraphBuild :=
  let r := ensureNode st p.key
  let st2 := { r.1 with package_map := (r.2, p) :: r.1.package_map }
  p.dependencies.foldl
    (fun acc dep =>
      let rd := ensureNode acc dep.key
      { rd.1 with graph := rd.1.graph.add_edge r.2 rd.2 })
    st2

/-- `make_dependency_graph` from `chain.rs`.  The Rust function unwraps the
final root lookup; we return it as an `Option` and theorems hypothesize its
success. -/
def make_dependency_graph (packages : List Package) (root_name : String) :
    DiGraph × List (Nat × Package) × Option Nat :=
  let st := packages.foldl processPackage ⟨⟨[], []⟩, [], []⟩
  (st.graph, st.package_map, st.node_map.lookup root_name)

/-- All `{name}-{version}` keys mentioned by a package list: each package
key followed by its dependency keys. -/
def allKeys : List Package → List String
  | [] => []
  | p :: ps => p.key :: (p.dependencies.map Dependency.key ++ allKeys ps)

/-! ### Post-order depth-first traversal (`petgraph::visit::DfsPostOrder`)

The iterator `DfsPostOrder::new(&graph, root)` driven by `traverse.next`
emits exactly the nodes reachable from the root, each once, in post-order
of a depth-first search.  We model the search recursively with a fuel
argument (the node count suffices, since every level of nesting discovers a
new node). -/

/-- The traversal state: nodes discovered so far, and the finished
(post-order output) sequence. -/
structure DfsState where
  discovered : List Nat
  finished : List Nat
deriving DecidableEq, Repr

/-- One depth-first visit: skip a discovered node; otherwise mark it
discovered, visit its successors, then append it to the output. -/
def dfsVisit (g : DiGraph) : Nat → Nat → DfsState → DfsState
  | 0, _, s => s
  | fuel + 1, u, s =>
    if u ∈ s.discovered then s
    else
      let s1 : DfsState := ⟨u :: s.discovered, s.finished⟩
      let s2 := (g.succ u).foldl (fun acc v => dfsVisit g fuel v acc) s1
      ⟨s2.discovered, s2.finished ++ [u]⟩

/-- The post-order visitation sequence from the root. -/
def DiGraph.dfsPostOrder (g : DiGraph) (root : Nat) : List Nat :=
  (dfsVisit g g.nodes.length root ⟨[], []⟩).finished

/-! ### Policies and the policy filesystem -/

/-- An `anyhow` error, modelled as its chain of context frames, outermost
first. -/
abbrev ErrMsg := List String

/-- `PolicyFile` (from `policy.rs`, not in the sources).  Modelled from the
spec: the per-package audit artifact holds the set of public functions
marked caller-checked. -/
structure PolicyFile where
  pub_caller_checked : List CanonicalPath
deriving DecidableEq, Repr

/-- The stable on-disk representation of a policy file.  Modelled from the
spec: `policy.rs` is not in the sources; the spec requires a serialized form
with a lossless round-trip, so we model the serialized value as a small
structured document. -/
inductive SerValue where
  | str (s : String)
  | arr (elts : List SerValue)

/-- Decode a string leaf of the serialized form. -/
def SerValue.asStr : SerValue → Option String
  | .str s => some s
  | .arr _ => none

/-- Decode a sequence of string leaves, failing on any non-leaf. -/
def SerValue.decodeStrings : List SerValue → Option (List String)
  | [] => some []
  | v :: rest =>
    match v.asStr, SerValue.decodeStrings rest with
    | some s, some l => some (s :: l)
    | _, _ => none

/-- Modelled from the spec: `PolicyFile::save_to_file` serializes the
caller-checked set into the on-disk representation. -/
def PolicyFile.save (p : PolicyFile) : SerValue :=
  .arr (p.pub_caller_checked.map .str)

/-- Modelled from the spec: loading parses the on-disk representation back
into a policy, failing on a malformed document. -/
def PolicyFile.load (v : SerValue) : Option PolicyFile :=
  match v with
  | .arr elts =>
    (SerValue.decodeStrings elts).map (fun l => { pub_caller_checked := l })
  | .str _ => none

/-- An entry of the policy filesystem: a directory or a policy file. -/
inductive FsEntry where
  | dir
  | file (p : PolicyFile)
deriving DecidableEq, Repr

/-- The policy filesystem: an association list from path strings to
entries, newest binding first. -/
abbrev Fs := List (String × FsEntry)

/-- `remove_file`: drop every binding of the path. -/
def fsRemove (fs : Fs) (path : String) : Fs :=
  fs.filter (fun kv => kv.1 != path)

/-- Writing a file: bind the path to the entry, shadowing nothing (old
bindings of the path are dropped). -/
def fsSet (fs : Fs) (path : String) (e : FsEntry) : Fs :=
  (path, e) :: fsRemove fs path

/-- `AuditChain` (from `audit_chain.rs`, not in the sources).  Modelled from
the spec: the manifest location, the root crate path, and the map from
`{name}-{version}` keys to saved policy paths. -/
structure AuditChain where
  manifest_path : String
  crate_path : String
  crate_policies : List (String × String)
deriving DecidableEq, Repr

/-- `AuditChain::new`: constructed empty. -/
def AuditChain.new (manifest_path crate_path : String) : AuditChain :=
  { manifest_path := manifest_path, crate_path := crate_path, crate_policies := [] }

/-- Modelled from the spec: `AuditChain::add_crate_policy` registers the new
policy path against the package key in the chain manifest. -/
def AuditChain.add_crate_policy (chain : AuditChain) (package : Package)
    (policy_path : String) : AuditChain :=
  { chain with crate_policies := (package.key, policy_path) :: chain.crate_policies }

/-- Modelled from the spec: `AuditChain::read_policy` looks up the saved
policy path registered for a `{name}-{version}` key and reads the policy
back from disk; either failure yields an error naming the unreadable
package key. -/
def AuditChain.read_policy (chain : AuditChain) (fs : Fs) (key : String) :
    Except ErrMsg PolicyFile :=
  match chain.crate_policies.lookup key with
  | none => .error ["no policy saved for crate", key]
  | some path =>
    match fs.lookup path with
    | some (.file p) => .ok p
    | _ => .error ["couldnt read policy file for crate", key]

/-- `collect_dependency_sinks` from `chain.rs`: for each direct dependency
read its persisted policy and union in its caller-checked set; the first
read failure aborts with the context frame of the source pushed onto the
dependency error. -/
def collect_dependency_sinks (chain : AuditChain) (fs : Fs) :
    List Dependency → Except ErrMsg (List CanonicalPath)
  | [] => .ok []
  | dep :: rest =>
    match chain.read_policy fs dep.key with
    | .error e =>
      .error ("couldnt read dependency policy file (maybe created it out of order)" :: e)
    | .ok policy =>
      match collect_dependency_sinks chain fs rest with
      | .error e => .error e
      | .ok sinks => .ok (policy.pub_caller_checked ++ sinks)

/-- The `Create` subcommand arguments consumed by the chain creation run. -/
structure CreateArgs where
  crate_path : String
  manifest_path : String
  policy_path : String
  force_overwrite : Bool
deriving DecidableEq, Repr

/-- The policy file path
`format!("{}/{}-{}.policy", args.policy_path, name, version)`. -/
def policy_path_of (policy_dir : String) (key : String) : String :=
  policy_dir ++ "/" ++ key ++ ".policy"

/-- `make_new_policy` from `chain.rs`.  Returns the filesystem after the
call together with the saved policy path or the error.  The package source
fetch (`download_crate`, an external collaborator) and the policy synthesis
(`PolicyFile::new_caller_checked_default_with_sinks`, whose source is the
scanner and is not included) are passed in as functions. -/
def make_new_policy (chain : AuditChain) (fs : Fs) (package : Package)
    (root_name : String) (args : CreateArgs)
    (download : Package → Except ErrMsg String)
    (synth : String → List CanonicalPath → Except ErrMsg PolicyFile) :
    Fs × Except ErrMsg String :=
  let policy_path := policy_path_of args.policy_path package.key
  match (if package.key == root_name then .ok args.crate_path else download package) with
  | .error e => (fs, .error e)
  | .ok package_path =>
    let finish : Fs → Fs × Except ErrMsg String := fun fs1 =>
      match collect_dependency_sinks chain fs1 package.dependencies with
      | .error e => (fs1, .error e)
      | .ok sinks =>
        match synth package_path sinks with
        | .error e => (fs1, .error e)
        | .ok policy => (fsSet fs1 policy_path (.file policy), .ok policy_path)
    if fs.lookup policy_path = some .dir then
      (fs, .error ["Policy path is a directory"])
    else
      match fs.lookup policy_path with
      | some (.file _) =>
        if args.force_overwrite then finish (fsRemove fs policy_path)
        else (fs, .error ["Policy file already exists"])
      | _ => finish fs

/-- The state threaded through the chain-creation loop: the filesystem, the
chain manifest under construction, and the trace of `(key, policy path)`
pairs saved so far, in order. -/
structure ChainState where
  fs : Fs
  chain : AuditChain
  trace : List (String × String)
deriving DecidableEq, Repr

/-- The `while let Some(node) = traverse.next(..)` loop of
`create_new_audit_chain`: look the package up (the Rust code unwraps; a
missing entry is modelled as an abort), make its policy, and either register
it and continue or abort the run with the wrapping error. -/
def chain_loop (package_map : List (Nat × Package)) (root_name : String)
    (args : CreateArgs) (download : Package → Except ErrMsg String)
    (synth : String → List CanonicalPath → Except ErrMsg PolicyFile) :
    List Nat → ChainState → ChainState × Option ErrMsg
  | [], st => (st, none)
  | node :: rest, st =>
    match package_map.lookup node with
    | none => (st, some ["no package data for graph node"])
    | some package =>
      match make_new_policy st.chain st.fs package root_name args download synth with
      | (fs1, .ok policy_path) =>
        chain_loop package_map root_name args download synth rest
          { fs := fs1
            chain := st.chain.add_crate_policy package policy_path
            trace := st.trace ++ [(package.key, policy_path)] }
      | (fs1, .error e) =>
        ({ st with fs := fs1 }, some ("Audit chain creation failed" :: e))

/-- `create_new_audit_chain` from `chain.rs`, from the point where the
lockfile packages and the root name are known: build the dependency graph,
then drive the post-order traversal through the policy-creation loop.
The initial filesystem is a parameter (policies of earlier runs may exist). -/
def create_new_audit_chain (packages : List Package) (root_name : String)
    (args : CreateArgs) (fs0 : Fs)
    (download : Package → Except ErrMsg String)
    (synth : String → List CanonicalPath → Except ErrMsg PolicyFile) :
    ChainState × Option ErrMsg :=
  let built := make_dependency_graph packages root_name
  let st0 : ChainState :=
    { fs := fs0, chain := AuditChain.new args.manifest_path args.crate_path, trace := [] }
  match built.2.2 with
  | none => (st0, some ["root package not present in the dependency graph"])
  | some root =>
    chain_loop built.2.1 root_name args download synth
      (built.1.dfsPostOrder root) st0

/-- Whether every traced save still denotes a policy file on disk. -/
def TraceFiles (st : ChainState) : Prop :=
  ∀ kp ∈ st.trace, ∃ pol, st.fs.lookup kp.2 = some (.file pol)

/-- The number of valid node indices not yet discovered — the fuel measure
of the depth-first search. -/
def undisc (g : DiGraph) (s : DfsState) : Nat :=
  (Finset.range g.nodes.length \ s.discovered.toFinset).card

/-- The invariant of the depth-first search relative to the current
ancestor chain `anc`: the output is duplicate-free; a node is discovered
exactly when it is finished or an ancestor; successors of finished nodes
are finished or ancestors; among finished nodes, successors appear strictly
earlier; ancestors are unfinished; and discovered indices are valid. -/
def DfsInv (g : DiGraph) (anc : List Nat) (s : DfsState) : Prop :=
  s.finished.Nodup ∧
  (∀ x, x ∈ s.discovered ↔ (x ∈ s.finished ∨ x ∈ anc)) ∧
  (∀ a ∈ s.finished, ∀ b ∈ g.succ a, b ∈ s.finished ∨ b ∈ anc) ∧
  (∀ a b, a ∈ s.finished → b ∈ g.succ a → b ∈ s.finished →
    s.finished.indexOf b < s.finished.indexOf a) ∧
  (∀ x ∈ anc, x ∉ s.finished) ∧
  (∀ x ∈ s.discovered, x < g.nodes.length)

/-- Well-formedness of the `make_dependency_graph` build state: node labels
are duplicate-free; the node map binds exactly the labels present, to their
indices; edges connect valid indices; and the package map binds an index to
a package whose key labels that node. -/
def GraphWF (st : GraphBuild) : Prop :=
  st.graph.nodes.Nodup ∧
  (∀ s, (st.node_map.lookup s).isSome ↔ s ∈ st.graph.nodes) ∧
  (∀ s i, st.node_map.lookup s = some i →
    i < st.graph.nodes.length ∧ st.graph.nodes.getD i "" = s) ∧
  (∀ e ∈ st.graph.edges, e.1 < st.graph.nodes.length ∧ e.2 < st.graph.nodes.length) ∧
  (∀ ip ∈ st.package_map,
    ip.1 < st.graph.nodes.length ∧ st.graph.nodes.getD ip.1 "" = ip.2.key)

/-! ### Concrete instances used to exercise the theorems -/

/-- A trivial heuristic-resolver state with canned answers. -/
def unitHackyOps : HackyOps Unit where
  resolve_ident := fun _ _ => "backup::ident"
  resolve_path := fun _ _ => "backup::path"
  resolve_def := fun _ _ => "backup::def"
  resolve_ffi := fun _ _ => some "backup::ffi"
  push_mod := fun s _ => s
  pop_mod := fun s => s
  push_impl := fun s _ => s
  pop_impl := fun s => s
  push_fn := fun s _ => s
  pop_fn := fun s => s
  scan_use := fun s _ => s
  scan_foreign_fn := fun s _ => s

/-- A composed resolver whose precise strategy always fails. -/
def failingFileResolver : FileResolver Unit where
  filepath := ["src", "lib.rs"]
  resolver := fun _ _ => .error "no index entry"
  backup := ()

/-- A composed resolver whose precise strategy always succeeds. -/
def okFileResolver : FileResolver Unit where
  filepath := ["src", "lib.rs"]
  resolver := fun _ _ => .ok "precise::answer"
  backup := ()

/-- The diamond-dependency lockfile:
root depends on b and c, which both depend on d. -/
def diamondPackages : List Package :=
  [ { name := "root", version := "1.0.0",
      dependencies := [⟨"b", "1.0.0"⟩, ⟨"c", "1.0.0"⟩] },
    { name := "b", version := "1.0.0", dependencies := [⟨"d", "1.0.0"⟩] },
    { name := "c", version := "1.0.0", dependencies := [⟨"d", "1.0.0"⟩] },
    { name := "d", version := "1.0.0", dependencies := [] } ]

/-- Chain-creation arguments used by the concrete runs. -/
def exampleArgs : CreateArgs :=
  { crate_path := "crate", manifest_path := "man/chain.manifest",
    policy_path := "pol", force_overwrite := false }

/-- A download function that always succeeds. -/
def okDownload : Package → Except ErrMsg String :=
  fun p => .ok ("dl/" ++ p.key)

/-- A synthesis function that records the candidate sink set. -/
def okSynth : String → List CanonicalPath → Except ErrMsg PolicyFile :=
  fun _ sinks => .ok { pub_caller_checked := sinks }

/-! # Theorems -/

/-! ## C1: call-site classification priority -/

/-- C1: for every call site, `EffectInstance::new_call` yields at most one
effect, chosen by the priority order sink pattern, then FFI marker, then
unsafe marker: a sink match yields `SinkCall` whatever the FFI marker; with
no sink match an FFI marker yields `FFICall` whatever the unsafe marker; an
unsafe call matching neither yields `UnsafeCall`; and with none of the three
the call yields no effect. -/
theorem new_call_classification_priority (filepath : FsFilePath)
    (caller callee : CanonicalPath) (callsite : Span) ( is_unsafe : Bool)
    (ffi : Option CanonicalPath) (sinks : List IdentPath) :
    (∀ pat, Sink.new_match callee sinks = some pat →
      EffectInstance.new_call filepath caller callee callsite is_unsafe ffi sinks =
        some { caller := caller, call_loc := SrcLoc.from_span filepath callsite,
               callee := callee, eff_type := .SinkCall pat }) ∧
    (∀ f, Sink.new_match callee sinks = none → ffi = some f →
      EffectInstance.new_call filepath caller callee callsite is_unsafe ffi sinks =
        some { caller := caller, call_loc := SrcLoc.from_span filepath callsite,
               callee := callee, eff_type := .FFICall f }) ∧
    (Sink.new_match callee sinks = none → ffi = none → is_unsafe = true →
      EffectInstance.new_call filepath caller callee callsite is_unsafe ffi sinks =
        some { caller := caller, call_loc := SrcLoc.from_span filepath callsite,
               callee := callee, eff_type := .UnsafeCall callee }) ∧
    (Sink.new_match callee sinks = none → ffi = none → is_unsafe = false →
      EffectInstance.new_call filepath caller callee callsite is_unsafe ffi sinks = none) ∧
    (∀ e1 e2,
      EffectInstance.new_call filepath caller callee callsite is_unsafe ffi sinks = some e1 →
      EffectInstance.new_call filepath caller callee callsite is_unsafe ffi sinks = some e2 →
      e1 = e2) := by
  refine ⟨?_, ?_, ?_, ?_, ?_⟩
  · intro pat h
    simp [EffectInstance.new_call, h]
  · intro f h1 h2
    subst h2
    simp [EffectInstance.new_call, h1]
  · intro h1 h2 h3
    subst h2; subst h3
    simp [EffectInstance.new_call, h1]
  · intro h1 h2 h3
    subst h2; subst h3
    simp [EffectInstance.new_call, h1]
  · intro e1 e2 h1 h2
    rw [h1] at h2
    exact Option.some.inj h2

/-- C1 witness: a concrete libc call that both matches a sink pattern and
carries an FFI marker classifies as `SinkCall`, never `FFICall`. -/
theorem new_call_classification_priority_witness :
    Sink.new_match "libc::getenv" ["libc"] = some "libc" ∧
    EffectInstance.new_call ["src", "lib.rs"] "mycrate::f" "libc::getenv"
        ⟨1, 2, 3, 4⟩ true (some "libc::getenv") ["libc"] =
      some { caller := "mycrate::f"
             call_loc := SrcLoc.from_span ["src", "lib.rs"] ⟨1, 2, 3, 4⟩
             callee := "libc::getenv"
             eff_type := .SinkCall "libc" } := by
  have h : Sink.new_match "libc::getenv" ["libc"] = some "libc" := by decide
  exact ⟨h, (new_call_classification_priority ["src", "lib.rs"] "mycrate::f"
    "libc::getenv" ⟨1, 2, 3, 4⟩ true (some "libc::getenv") ["libc"]).1 "libc" h⟩

/-! ## C10: `new_unsafe_fn` coincides with `new_fn` -/

/-- C10: for every filepath, declaration span, function name and visibility,
`EffectBlock::new_unsafe_fn` returns exactly the block `EffectBlock::new_fn`
returns; both set `block_type` to `NormalFn`, and no `EffectBlock`
constructor produces a block with `block_type` `UnsafeFn`. -/
theorem new_unsafe_fn_eq_new_fn (filepath : FsFilePath) (decl_span : Span)
    (fn_name : CanonicalPath) (vis : Visibility) (containing_fn : FnDec)
    (fn_decl : FnDec) (eff : EffectInstance) (block_span : Span) :
    EffectBlock.new_unsafe_fn filepath decl_span fn_name vis =
      EffectBlock.new_fn filepath decl_span fn_name vis ∧
    (EffectBlock.new_fn filepath decl_span fn_name vis).block_type =
      BlockType.NormalFn ∧
    (EffectBlock.new_unsafe_fn filepath decl_span fn_name vis).block_type =
      BlockType.NormalFn ∧
    (EffectBlock.new_unsafe_expr filepath block_span containing_fn).block_type ≠
      BlockType.UnsafeFn ∧
    (EffectBlock.from_fn_decl fn_decl).block_type ≠ BlockType.UnsafeFn ∧
    (EffectBlock.from_effect eff containing_fn).block_type ≠ BlockType.UnsafeFn := by
  refine ⟨rfl, rfl, rfl, ?_, ?_, ?_⟩ <;> intro h <;> exact BlockType.noConfusion h

/-! ## C6: policy round-trip -/

/-- C6: loading a saved policy returns a policy equal to the saved one in
its caller-checked-set contents, for any policy including one with an empty
caller-checked set. -/
theorem policy_file_roundtrip (p : PolicyFile) :
    PolicyFile.load (PolicyFile.save p) = some p := by
  have h : ∀ l : List String, SerValue.decodeStrings (l.map SerValue.str) = some l := by
    intro l
    induction l with
    | nil => rfl
    | cons a t ih => simp [SerValue.decodeStrings, SerValue.asStr, ih]
  simp [PolicyFile.load, PolicyFile.save, h]

/-! ## C7: `filter_effects` extracts the non-matching subset -/

/-- C7 counterexample: on a block holding one effect and the always-true
predicate, `filter_effects` returns the empty list — not the subset matching
the predicate, which it instead keeps in the block. -/
theorem filter_effects_counterexample :
    let e : EffectInstance :=
      { caller := "c::f", call_loc := ⟨[], "lib.rs", 0, 0, 0, 0⟩,
        callee := "c::g", eff_type := .FnPtrCreation }
    let b : EffectBlock :=
      { src_loc := ⟨[], "lib.rs", 0, 0, 0, 0⟩, block_type := .NormalFn,
        effects := [e],
        containing_fn :=
          { src_loc := ⟨[], "lib.rs", 0, 0, 0, 0⟩, fn_name := "c::f",
            vis := .Private } }
    (b.filter_effects (fun _ => true)).2 ≠ b.effects.filter (fun _ => true) ∧
    (b.filter_effects (fun _ => true)).2 = [] ∧
    (b.filter_effects (fun _ => true)).1.effects = b.effects := by
  decide

/-- C7 (amended): `filter_effects` removes from the block and returns
exactly the effects for which the predicate returns `false`, keeps the
effects for which it returns `true` in their original relative order, and
leaves `src_loc`, `block_type` and `containing_fn` unchanged. -/
theorem filter_effects_spec (b : EffectBlock) (f : EffectInstance → Bool) :
    (b.filter_effects f).2 = b.effects.filter (fun e => ! f e) ∧
    (b.filter_effects f).1.effects = b.effects.filter f ∧
    (b.filter_effects f).1.src_loc = b.src_loc ∧
    (b.filter_effects f).1.block_type = b.block_type ∧
    (b.filter_effects f).1.containing_fn = b.containing_fn := by
  refine ⟨?_, ?_, rfl, rfl, rfl⟩ <;>
    (simp only [EffectBlock.filter_effects, List.partition_eq_filter_filter]
     try rfl)

/-! ## C8 and C5: resolver composition -/

/-- Shared helper: unpacking a `resolve_core` failure — the wrapped error
carries the `add1`-shifted query location, the queried identifier, and the
underlying cause returned by the precise resolver. -/
theorem resolve_core_error_elim {H : Type} (fr : FileResolver H) (i : SynIdent)
    (err : ResolutionErr) (h : fr.resolve_core i = .error err) :
    err.loc = (SrcLoc.from_span fr.filepath i.span).add1 ∧
    err.ident = Ident.from_syn i ∧
    fr.resolver err.loc err.ident = .error err.cause := by
  cases hres : fr.resolver ((SrcLoc.from_span fr.filepath i.span).add1)
      (Ident.from_syn i) with
  | ok v =>
    have hok : fr.resolve_core i = .ok v := by
      simp [FileResolver.resolve_core, hres]
    rw [hok] at h
    exact absurd h (by simp)
  | error e =>
    have herr : fr.resolve_core i =
        .error { loc := (SrcLoc.from_span fr.filepath i.span).add1
                 ident := Ident.from_syn i, cause := e } := by
      simp [FileResolver.resolve_core, hres]
    rw [herr] at h
    injection h with h2
    rw [← h2]
    exact ⟨rfl, rfl, hres⟩

/-- C8: `sub1` decreases `start_line` and `end_line` by exactly one and
changes nothing else (the receiver itself is unchanged — the embedding is
pure); `add1` increases `start_col` by exactly one and changes no other
field; and `resolve_core` consults the precise resolver exactly at the
`add1`-shifted span location of the identifier. -/
theorem srcloc_transforms_and_resolution_offset (l : SrcLoc)
    (h1 : 1 ≤ l.start_line) (h2 : 1 ≤ l.end_line) :
    (l.sub1.start_line + 1 = l.start_line ∧ l.sub1.end_line + 1 = l.end_line ∧
     l.sub1.dir = l.dir ∧ l.sub1.file = l.file ∧
     l.sub1.start_col = l.start_col ∧ l.sub1.end_col = l.end_col) ∧
    (∀ l2 : SrcLoc, l2.add1.start_col = l2.start_col + 1 ∧
     l2.add1.dir = l2.dir ∧ l2.add1.file = l2.file ∧
     l2.add1.start_line = l2.start_line ∧ l2.add1.end_line = l2.end_line ∧
     l2.add1.end_col = l2.end_col) ∧
    (∀ (H : Type) (fr : FileResolver H) (i : SynIdent) (r2 : Resolver),
      r2 ((SrcLoc.from_span fr.filepath i.span).add1) =
        fr.resolver ((SrcLoc.from_span fr.filepath i.span).add1) →
      FileResolver.resolve_core { fr with resolver := r2 } i = fr.resolve_core i) ∧
    (∀ (H : Type) (fr : FileResolver H) (i : SynIdent) (err : ResolutionErr),
      fr.resolve_core i = .error err →
      err.loc = (SrcLoc.from_span fr.filepath i.span).add1) := by
  refine ⟨⟨?_, ?_, rfl, rfl, rfl, rfl⟩, ?_, ?_, ?_⟩
  · simp only [SrcLoc.sub1]; omega
  · simp only [SrcLoc.sub1]; omega
  · intro l2; exact ⟨rfl, rfl, rfl, rfl, rfl, rfl⟩
  · intro H fr i r2 h
    simp only [FileResolver.resolve_core]
    rw [h]
  · intro H fr i err h
    exact (resolve_core_error_elim fr i err h).1

/-- C8 witness: the transforms evaluated on the concrete location
`src/lib.rs 5:2..7:9`. -/
theorem srcloc_transforms_witness :
    (1 ≤ (5 : Nat)) ∧ (1 ≤ (7 : Nat)) ∧
    ((⟨["src"], "lib.rs", 5, 2, 7, 9⟩ : SrcLoc).sub1.start_line + 1 = 5 ∧
     (⟨["src"], "lib.rs", 5, 2, 7, 9⟩ : SrcLoc).sub1.end_line + 1 = 7 ∧
     (⟨["src"], "lib.rs", 5, 2, 7, 9⟩ : SrcLoc).sub1.dir = ["src"] ∧
     (⟨["src"], "lib.rs", 5, 2, 7, 9⟩ : SrcLoc).sub1.file = "lib.rs" ∧
     (⟨["src"], "lib.rs", 5, 2, 7, 9⟩ : SrcLoc).sub1.start_col = 2 ∧
     (⟨["src"], "lib.rs", 5, 2, 7, 9⟩ : SrcLoc).sub1.end_col = 9) := by
  have h := srcloc_transforms_and_resolution_offset
    ⟨["src"], "lib.rs", 5, 2, 7, 9⟩ (by decide) (by decide)
  exact ⟨by decide, by decide, h.1⟩

/-- C5: the composed resolution functions are total: when the precise
resolver succeeds its result is returned with nothing logged; exactly when
it fails, one warning is emitted (carrying the failure cause and the source
location, followed by the fallback note) and the heuristic backup result is
returned instead. -/
theorem resolver_fallback_spec (H : Type) (ops : HackyOps H)
    (fr : FileResolver H) (i : SynIdent) (p : SynPath) :
    (∀ res, fr.resolve_core i = .ok res →
      FileResolver.resolve_ident ops fr i = (res.to_path, []) ∧
      FileResolver.resolve_def ops fr i = (res, [])) ∧
    (∀ err, fr.resolve_core i = .error err →
      FileResolver.resolve_ident ops fr i =
        (ops.resolve_ident fr.backup i,
         [.resolutionFailed err, .fallingBack]) ∧
      FileResolver.resolve_def ops fr i =
        (ops.resolve_def fr.backup i,
         [.resolutionFailed err, .fallingBack]) ∧
      (([LogEntry.resolutionFailed err,
         LogEntry.fallingBack].filter LogEntry.isWarning).length = 1) ∧
      err.loc = (SrcLoc.from_span fr.filepath i.span).add1 ∧
      err.ident = Ident.from_syn i ∧
      fr.resolver err.loc err.ident = .error err.cause) ∧
    (∀ res, fr.resolve_core (p.segments.getLastD ⟨"", ⟨0, 0, 0, 0⟩⟩) = .ok res →
      FileResolver.resolve_path ops fr p = (res.to_path, [])) ∧
    (∀ err, fr.resolve_core (p.segments.getLastD ⟨"", ⟨0, 0, 0, 0⟩⟩) = .error err →
      FileResolver.resolve_path ops fr p =
        (ops.resolve_path fr.backup p,
         [.resolutionFailed err, .fallingBack])) := by
  refine ⟨?_, ?_, ?_, ?_⟩
  · intro res h
    constructor <;>
      simp [FileResolver.resolve_ident, FileResolver.resolve_def,
        FileResolver.resolve_or_else, h]
  · intro err h
    obtain ⟨hl, hi, hc⟩ := resolve_core_error_elim fr i err h
    refine ⟨?_, ?_, rfl, hl, hi, hc⟩ <;>
      simp [FileResolver.resolve_ident, FileResolver.resolve_def,
        FileResolver.resolve_or_else, h]
  · intro res h
    simp only [FileResolver.resolve_path, FileResolver.resolve_or_else]
    rw [h]
  · intro err h
    simp only [FileResolver.resolve_path, FileResolver.resolve_or_else]
    rw [h]

/-- C5 witness: with a precise resolver that always fails, `resolve_ident`
returns the heuristic answer and logs the single warning carrying the
shifted location and the cause. -/
theorem resolver_fallback_witness :
    FileResolver.resolve_ident unitHackyOps failingFileResolver ⟨"x", ⟨1, 2, 3, 4⟩⟩ =
      ("backup::ident",
       [LogEntry.resolutionFailed
          { loc := ⟨["src"], "lib.rs", 1, 3, 3, 4⟩, ident := "x",
            cause := "no index entry" },
        LogEntry.fallingBack]) := by
  have h : failingFileResolver.resolve_core ⟨"x", ⟨1, 2, 3, 4⟩⟩ =
      .error { loc := ⟨["src"], "lib.rs", 1, 3, 3, 4⟩, ident := "x",
               cause := "no index entry" } := rfl
  exact ((resolver_fallback_spec Unit unitHackyOps failingFileResolver
    ⟨"x", ⟨1, 2, 3, 4⟩⟩ ⟨[]⟩).2.1 _ h).1

/-! ## C9: FFI resolution and scope tracking delegate to the backup -/

/-- C9: `resolve_ffi` and every scope-tracking operation of the composed
resolver delegate exclusively to the heuristic backup resolver: the result
never depends on the precise resolver, which is left untouched in the
returned state. -/
theorem resolver_delegation_spec (H : Type) (ops : HackyOps H)
    (fp : FsFilePath) (r1 r2 : Resolver) (b : H) (p : SynPath) (m fi : SynIdent)
    (im : SynItemImpl) (us : SynItemUse) (ff : SynForeignItemFn) :
    FileResolver.resolve_ffi ops ⟨fp, r1, b⟩ p = ops.resolve_ffi b p ∧
    FileResolver.resolve_ffi ops ⟨fp, r1, b⟩ p =
      FileResolver.resolve_ffi ops ⟨fp, r2, b⟩ p ∧
    FileResolver.push_mod ops ⟨fp, r1, b⟩ m = ⟨fp, r1, ops.push_mod b m⟩ ∧
    FileResolver.pop_mod ops ⟨fp, r1, b⟩ = ⟨fp, r1, ops.pop_mod b⟩ ∧
    FileResolver.push_impl ops ⟨fp, r1, b⟩ im = ⟨fp, r1, ops.push_impl b im⟩ ∧
    FileResolver.pop_impl ops ⟨fp, r1, b⟩ = ⟨fp, r1, ops.pop_impl b⟩ ∧
    FileResolver.push_fn ops ⟨fp, r1, b⟩ fi = ⟨fp, r1, ops.push_fn b fi⟩ ∧
    FileResolver.pop_fn ops ⟨fp, r1, b⟩ = ⟨fp, r1, ops.pop_fn b⟩ ∧
    FileResolver.scan_use ops ⟨fp, r1, b⟩ us = ⟨fp, r1, ops.scan_use b us⟩ ∧
    FileResolver.scan_foreign_fn ops ⟨fp, r1, b⟩ ff =
      ⟨fp, r1, ops.scan_foreign_fn b ff⟩ :=
  ⟨rfl, rfl, rfl, rfl, rfl, rfl, rfl, rfl, rfl, rfl⟩

/-! ## C4: policy persistence checks in `make_new_policy` -/

/-- Looking up the path just written returns the new entry. -/
theorem fsSet_lookup_self (fs : Fs) (path : String) (e : FsEntry) :
    (fsSet fs path e).lookup path = some e := by
  simp [fsSet, List.lookup_cons]

/-- Removing one path leaves every other path unchanged. -/
theorem fsRemove_lookup_ne (fs : Fs) (path q : String) (h : q ≠ path) :
    (fsRemove fs path).lookup q = fs.lookup q := by
  induction fs with
  | nil => rfl
  | cons kv rest ih =>
    obtain ⟨k, v⟩ := kv
    by_cases hk : k = path
    · have h1 : (k != path) = false := by simp [hk]
      have hqk : q ≠ k := fun hq => h (hq.trans hk)
      simp only [fsRemove, List.filter_cons, h1, Bool.false_eq_true, if_false,
        List.lookup_cons, beq_false_of_ne hqk]
      exact ih
    · have h1 : (k != path) = true := by simp [hk]
      rcases eq_or_ne q k with hq | hq
      · simp [fsRemove, List.filter_cons, h1, List.lookup_cons, hq]
      · simp only [fsRemove, List.filter_cons, h1, if_true, List.lookup_cons,
          beq_false_of_ne hq]
        exact ih

/-- Writing one path leaves every other path unchanged. -/
theorem fsSet_lookup_ne (fs : Fs) (path q : String) (e : FsEntry)
    (h : q ≠ path) : (fsSet fs path e).lookup q = fs.lookup q := by
  simp only [fsSet, List.lookup_cons, beq_false_of_ne h]
  exact fsRemove_lookup_ne fs path q h

/-- The removed path is gone. -/
theorem fsRemove_lookup_self (fs : Fs) (path : String) :
    (fsRemove fs path).lookup path = none := by
  induction fs with
  | nil => rfl
  | cons kv rest ih =>
    obtain ⟨k, v⟩ := kv
    by_cases hk : k = path
    · have h1 : (k != path) = false := by simp [hk]
      simp only [fsRemove, List.filter_cons, h1, Bool.false_eq_true, if_false]
      exact ih
    · have h1 : (k != path) = true := by simp [hk]
      have h2 : (path == k) = false := beq_false_of_ne (fun he => hk he.symm)
      simp only [fsRemove, List.filter_cons, h1, if_true, List.lookup_cons, h2]
      exact ih

/-- C4 counterexample: with an existing policy file and the force flag set,
a failure of dependency-sink collection leaves the run with the existing
file removed and no new policy written — so force does not by itself
guarantee that a new policy is written in place of the old one. -/
theorem make_new_policy_force_counterexample :
    (([("pol/alpha-1.0.0.policy", FsEntry.file ⟨[]⟩)] : Fs).lookup
        "pol/alpha-1.0.0.policy" = some (.file ⟨[]⟩)) ∧
    (∃ e,
      (make_new_policy (AuditChain.new "man" "crate")
        [("pol/alpha-1.0.0.policy", FsEntry.file ⟨[]⟩)]
        { name := "alpha", version := "1.0.0",
          dependencies := [⟨"beta", "1.0.0"⟩] }
        "alpha-1.0.0"
        { crate_path := "crate", manifest_path := "man", policy_path := "pol",
          force_overwrite := true }
        okDownload okSynth).2 = .error e) ∧
    ((make_new_policy (AuditChain.new "man" "crate")
        [("pol/alpha-1.0.0.policy", FsEntry.file ⟨[]⟩)]
        { name := "alpha", version := "1.0.0",
          dependencies := [⟨"beta", "1.0.0"⟩] }
        "alpha-1.0.0"
        { crate_path := "crate", manifest_path := "man", policy_path := "pol",
          force_overwrite := true }
        okDownload okSynth).1.lookup "pol/alpha-1.0.0.policy" = none) :=
  ⟨rfl, ⟨_, rfl⟩, rfl⟩

/-- C4 (amended): `make_new_policy` returns an error without writing
anything when the target policy path is a directory, and when the target
policy file exists and the force flag is unset; when the file exists, force
is set, and the remaining steps (source acquisition, dependency-sink
collection, policy synthesis) succeed, the existing file is removed and the
new policy is written in its place. -/
theorem make_new_policy_persist_spec (chain : AuditChain) (fs : Fs)
    (package : Package) (root_name : String) (args : CreateArgs)
    (download : Package → Except ErrMsg String)
    (synth : String → List CanonicalPath → Except ErrMsg PolicyFile) :
    (fs.lookup (policy_path_of args.policy_path package.key) = some .dir →
      ∃ e, make_new_policy chain fs package root_name args download synth =
        (fs, .error e)) ∧
    (∀ pol,
      fs.lookup (policy_path_of args.policy_path package.key) = some (.file pol) →
      args.force_overwrite = false →
      ∃ e, make_new_policy chain fs package root_name args download synth =
        (fs, .error e)) ∧
    (∀ pol pp sinks newpol,
      fs.lookup (policy_path_of args.policy_path package.key) = some (.file pol) →
      args.force_overwrite = true →
      (if package.key == root_name then Except.ok args.crate_path
       else download package) = .ok pp →
      collect_dependency_sinks chain
        (fsRemove fs (policy_path_of args.policy_path package.key))
        package.dependencies = .ok sinks →
      synth pp sinks = .ok newpol →
      make_new_policy chain fs package root_name args download synth =
        (fsSet (fsRemove fs (policy_path_of args.policy_path package.key))
           (policy_path_of args.policy_path package.key) (.file newpol),
         .ok (policy_path_of args.policy_path package.key)) ∧
      (make_new_policy chain fs package root_name args download
          synth).1.lookup (policy_path_of args.policy_path package.key) =
        some (.file newpol)) := by
  refine ⟨?_, ?_, ?_⟩
  · intro hdir
    cases hdl : (if package.key == root_name then Except.ok args.crate_path
        else download package) with
    | error e =>
      refine ⟨e, ?_⟩
      simp only [make_new_policy]
      rw [hdl]
    | ok pp =>
      refine ⟨["Policy path is a directory"], ?_⟩
      simp only [make_new_policy]
      rw [hdl]
      simp [hdir]
  · intro pol hf hforce
    cases hdl : (if package.key == root_name then Except.ok args.crate_path
        else download package) with
    | error e =>
      refine ⟨e, ?_⟩
      simp only [make_new_policy]
      rw [hdl]
    | ok pp =>
      refine ⟨["Policy file already exists"], ?_⟩
      simp only [make_new_policy]
      rw [hdl]
      simp [hf, hforce]
  · intro pol pp sinks newpol hf hforce hdl hcol hsyn
    have hmain : make_new_policy chain fs package root_name args download synth =
        (fsSet (fsRemove fs (policy_path_of args.policy_path package.key))
           (policy_path_of args.policy_path package.key) (.file newpol),
         .ok (policy_path_of args.policy_path package.key)) := by
      simp only [make_new_policy]
      rw [hdl]
      simp [hf, hforce, hcol, hsyn]
    refine ⟨hmain, ?_⟩
    rw [hmain]
    exact fsSet_lookup_self _ _ _

/-- C4 witness: replacing an existing policy file of a dependency-free root
package with force set succeeds and leaves the fresh policy at the target
path. -/
theorem make_new_policy_persist_witness :
    (make_new_policy (AuditChain.new "man" "crate")
      [("pol/alpha-1.0.0.policy", FsEntry.file ⟨["old::fn"]⟩)]
      { name := "alpha", version := "1.0.0", dependencies := [] }
      "alpha-1.0.0"
      { crate_path := "crate", manifest_path := "man", policy_path := "pol",
        force_overwrite := true }
      okDownload okSynth).1.lookup "pol/alpha-1.0.0.policy" =
      some (.file ⟨[]⟩) := by
  have h := (make_new_policy_persist_spec (AuditChain.new "man" "crate")
    [("pol/alpha-1.0.0.policy", FsEntry.file ⟨["old::fn"]⟩)]
    { name := "alpha", version := "1.0.0", dependencies := [] }
    "alpha-1.0.0"
    { crate_path := "crate", manifest_path := "man", policy_path := "pol",
      force_overwrite := true }
    okDownload okSynth).2.2 ⟨["old::fn"]⟩ "crate" [] ⟨[]⟩ rfl rfl rfl rfl rfl
  exact h.2

/-! ## C2: dependency graph and post-order traversal -/

/-- Membership in the successor list is exactly the edge relation. -/
theorem DiGraph.mem_succ {g : DiGraph} {a b : Nat} : b ∈ g.succ a ↔ g.Edge a b := by
  constructor
  · intro hb
    obtain ⟨e, he, hb2⟩ := List.mem_map.mp hb
    obtain ⟨hmem, hcond⟩ := List.mem_filter.mp he
    obtain ⟨x, y⟩ := e
    have hx : x = a := by simpa using hcond
    subst hx
    cases hb2
    exact hmem
  · intro hb
    exact List.mem_map.mpr ⟨(a, b), List.mem_filter.mpr ⟨hb, by simp⟩, rfl⟩

/-- Along a graph whose edges increase indices, reachability is monotone. -/
theorem DiGraph.reach_le {g : DiGraph} (h : ∀ e ∈ g.edges, e.1 < e.2) :
    ∀ {x y : Nat}, g.Reach x y → x ≤ y := by
  intro x y hr
  induction hr with
  | refl => exact le_refl x
  | tail _ hedge ih => exact ih.trans (le_of_lt (h _ hedge))

/-- A graph whose every edge increases the node index is acyclic. -/
theorem DiGraph.acyclic_of_edges_lt (g : DiGraph)
    (h : ∀ e ∈ g.edges, e.1 < e.2) : g.Acyclic := by
  intro a b hab hba
  have h1 : a < b := h _ hab
  have h2 : b ≤ a := DiGraph.reach_le h hba
  omega

/-- Discovering more nodes does not increase the fuel measure. -/
theorem undisc_le_of_subset {g : DiGraph} {s1 s2 : DfsState}
    (h : ∀ x ∈ s1.discovered, x ∈ s2.discovered) : undisc g s2 ≤ undisc g s1 := by
  apply Finset.card_le_card
  intro x hx
  simp only [Finset.mem_sdiff, Finset.mem_range, List.mem_toFinset] at hx ⊢
  exact ⟨hx.1, fun hmem => hx.2 (h x hmem)⟩

/-- Discovering a fresh valid node decreases the fuel measure by one. -/
theorem undisc_cons {g : DiGraph} {s : DfsState} {u : Nat}
    (hu : u < g.nodes.length) (hnd : u ∉ s.discovered) :
    undisc g ⟨u :: s.discovered, s.finished⟩ + 1 = undisc g s := by
  unfold undisc
  have hset : Finset.range g.nodes.length \ (u :: s.discovered).toFinset =
      (Finset.range g.nodes.length \ s.discovered.toFinset).erase u := by
    simp [List.toFinset_cons, Finset.sdiff_insert]
  have hmem : u ∈ Finset.range g.nodes.length \ s.discovered.toFinset := by
    simp only [Finset.mem_sdiff, Finset.mem_range, List.mem_toFinset]
    exact ⟨hu, hnd⟩
  rw [hset, Finset.card_erase_of_mem hmem]
  have hpos := Finset.card_pos.mpr ⟨u, hmem⟩
  omega

/-- The central lemma on the depth-first search: a single visit preserves
the invariant relative to the ancestor chain, only appends to the output,
discovers the visited node, and discovers only nodes reachable from it. -/
theorem dfsVisit_spec (g : DiGraph)
    (hedge : ∀ e ∈ g.edges, e.2 < g.nodes.length) (hacyc : g.Acyclic) :
    ∀ (fuel u : Nat) (anc : List Nat) (s : DfsState),
      u < g.nodes.length →
      (∀ x ∈ anc, g.Reach x u) →
      DfsInv g anc s →
      undisc g s ≤ fuel →
      DfsInv g anc (dfsVisit g fuel u s) ∧
      (∀ x ∈ s.discovered, x ∈ (dfsVisit g fuel u s).discovered) ∧
      (∃ t, (dfsVisit g fuel u s).finished = s.finished ++ t) ∧
      u ∈ (dfsVisit g fuel u s).discovered ∧
      (∀ x ∈ (dfsVisit g fuel u s).discovered,
        x ∈ s.discovered ∨ g.Reach u x) := by
  intro fuel
  induction fuel with
  | zero =>
    intro u anc s hu hanc hinv hfuel
    have hall : ∀ x, x < g.nodes.length → x ∈ s.discovered := by
      intro x hx
      by_contra hmem
      have hin : x ∈ Finset.range g.nodes.length \ s.discovered.toFinset := by
        simp only [Finset.mem_sdiff, Finset.mem_range, List.mem_toFinset]
        exact ⟨hx, hmem⟩
      have hpos := Finset.card_pos.mpr ⟨x, hin⟩
      unfold undisc at hfuel
      omega
    exact ⟨hinv, fun x hx => hx, ⟨[], (List.append_nil _).symm⟩, hall u hu,
      fun x hx => Or.inl hx⟩
  | succ fuel ih =>
    intro u anc s hu hanc hinv hfuel
    by_cases hd : u ∈ s.discovered
    · have heq : dfsVisit g (fuel + 1) u s = s := by
        simp [dfsVisit, hd]
      rw [heq]
      exact ⟨hinv, fun x hx => hx, ⟨[], (List.append_nil _).symm⟩, hd,
        fun x hx => Or.inl hx⟩
    · have heq : dfsVisit g (fuel + 1) u s =
          ⟨((g.succ u).foldl (fun acc v => dfsVisit g fuel v acc)
              ⟨u :: s.discovered, s.finished⟩).discovered,
           ((g.succ u).foldl (fun acc v => dfsVisit g fuel v acc)
              ⟨u :: s.discovered, s.finished⟩).finished ++ [u]⟩ := by
        simp [dfsVisit, hd]
      rw [heq]
      obtain ⟨hnodup, hdisc_iff, hclosure, horder, hanc_nf, hdisc_lt⟩ := hinv
      have hu_nanc : u ∉ anc := fun hm => hd ((hdisc_iff u).mpr (Or.inr hm))
      have hu_nfin : u ∉ s.finished := fun hm => hd ((hdisc_iff u).mpr (Or.inl hm))
      have hinv1 : DfsInv g (u :: anc) ⟨u :: s.discovered, s.finished⟩ := by
        refine ⟨hnodup, ?_, ?_, horder, ?_, ?_⟩
        · intro x
          constructor
          · intro hx
            rcases List.mem_cons.mp hx with h1 | h1
            · exact Or.inr (h1 ▸ List.mem_cons_self u anc)
            · rcases (hdisc_iff x).mp h1 with h2 | h2
              · exact Or.inl h2
              · exact Or.inr (List.mem_cons_of_mem u h2)
          · intro hx
            rcases hx with h1 | h1
            · exact List.mem_cons_of_mem u ((hdisc_iff x).mpr (Or.inl h1))
            · rcases List.mem_cons.mp h1 with h2 | h2
              · exact h2 ▸ List.mem_cons_self u s.discovered
              · exact List.mem_cons_of_mem u ((hdisc_iff x).mpr (Or.inr h2))
        · intro a ha b hb
          rcases hclosure a ha b hb with h1 | h1
          · exact Or.inl h1
          · exact Or.inr (List.mem_cons_of_mem u h1)
        · intro x hx
          rcases List.mem_cons.mp hx with h1 | h1
          · exact h1 ▸ hu_nfin
          · exact hanc_nf x h1
        · intro x hx
          rcases List.mem_cons.mp hx with h1 | h1
          · exact h1 ▸ hu
          · exact hdisc_lt x h1
      have hfuel1 : undisc g ⟨u :: s.discovered, s.finished⟩ ≤ fuel := by
        have := undisc_cons (g := g) (s := s) hu hd
        omega
      have hsucc_reach : ∀ v ∈ g.succ u, g.Reach u v := fun v hv =>
        Relation.ReflTransGen.single (DiGraph.mem_succ.mp hv)
      have fold_spec : ∀ (l : List Nat), (∀ v ∈ l, v ∈ g.succ u) →
          ∀ acc : DfsState, DfsInv g (u :: anc) acc → undisc g acc ≤ fuel →
          DfsInv g (u :: anc) (l.foldl (fun a v => dfsVisit g fuel v a) acc) ∧
          (∀ x ∈ acc.discovered,
            x ∈ (l.foldl (fun a v => dfsVisit g fuel v a) acc).discovered) ∧
          (∃ t, (l.foldl (fun a v => dfsVisit g fuel v a) acc).finished =
            acc.finished ++ t) ∧
          (∀ v ∈ l, v ∈ (l.foldl (fun a v => dfsVisit g fuel v a) acc).discovered) ∧
          (∀ x ∈ (l.foldl (fun a v => dfsVisit g fuel v a) acc).discovered,
            x ∈ acc.discovered ∨ g.Reach u x) := by
        intro l
        induction l with
        | nil =>
          intro _ acc hinv2 hf2
          exact ⟨hinv2, fun x hx => hx, ⟨[], (List.append_nil _).symm⟩, by simp,
            fun x hx => Or.inl hx⟩
        | cons v l ihl =>
          intro hvl acc hinv2 hf2
          have hv : v ∈ g.succ u := hvl v (List.mem_cons_self v l)
          have hv_lt : v < g.nodes.length := hedge _ (DiGraph.mem_succ.mp hv)
          have hanc2 : ∀ x ∈ u :: anc, g.Reach x v := by
            intro x hx
            rcases List.mem_cons.mp hx with h1 | h1
            · exact h1 ▸ hsucc_reach v hv
            · exact (hanc x h1).trans (hsucc_reach v hv)
          obtain ⟨hinv3, hmono3, ⟨t3, ht3⟩, hvmem3, hreach3⟩ :=
            ih v (u :: anc) acc hv_lt hanc2 hinv2 hf2
          have hf3 : undisc g (dfsVisit g fuel v acc) ≤ fuel :=
            le_trans (undisc_le_of_subset hmono3) hf2
          obtain ⟨hinv4, hmono4, ⟨t4, ht4⟩, hvmem4, hreach4⟩ :=
            ihl (fun w hw => hvl w (List.mem_cons_of_mem v hw))
              (dfsVisit g fuel v acc) hinv3 hf3
          refine ⟨hinv4, ?_, ?_, ?_, ?_⟩
          · exact fun x hx => hmono4 x (hmono3 x hx)
          · exact ⟨t3 ++ t4, by
              rw [List.foldl_cons, ht4, ht3, List.append_assoc]⟩
          · intro w hw
            rcases List.mem_cons.mp hw with h1 | h1
            · exact h1 ▸ hmono4 v hvmem3
            · exact hvmem4 w h1
          · intro x hx
            rcases hreach4 x hx with h1 | h1
            · rcases hreach3 x h1 with h2 | h2
              · exact Or.inl h2
              · exact Or.inr ((hsucc_reach v hv).trans h2)
            · exact Or.inr h1
      obtain ⟨hinv2, hmono2, ⟨t2, ht2⟩, hallsucc, hreach2⟩ :=
        fold_spec (g.succ u) (fun v hv => hv) ⟨u :: s.discovered, s.finished⟩
          hinv1 hfuel1
      obtain ⟨hnodup2, hdisc_iff2, hclosure2, horder2, hanc_nf2, hdisc_lt2⟩ := hinv2
      have hu_nfin2 : u ∉ ((g.succ u).foldl (fun a v => dfsVisit g fuel v a)
          ⟨u :: s.discovered, s.finished⟩).finished :=
        hanc_nf2 u (List.mem_cons_self u anc)
      have hself : ¬ g.Edge u u := fun he => hacyc u u he Relation.ReflTransGen.refl
      -- closure of the newly finished node
      have hAclosure : ∀ b ∈ g.succ u,
          b ∈ ((g.succ u).foldl (fun a v => dfsVisit g fuel v a)
            ⟨u :: s.discovered, s.finished⟩).finished ∨ b ∈ anc := by
        intro b hb
        rcases (hdisc_iff2 b).mp (hallsucc b hb) with h1 | h1
        · exact Or.inl h1
        · rcases List.mem_cons.mp h1 with h2 | h2
          · subst h2
            exact absurd (DiGraph.mem_succ.mp hb) hself
          · exact Or.inr h2
      -- no finished node has an edge back to the node being finished
      have hBnoback : ∀ a ∈ ((g.succ u).foldl (fun a v => dfsVisit g fuel v a)
          ⟨u :: s.discovered, s.finished⟩).finished, ¬ g.Edge a u := by
        intro a ha hback
        have hadisc : a ∈ ((g.succ u).foldl (fun a v => dfsVisit g fuel v a)
            ⟨u :: s.discovered, s.finished⟩).discovered :=
          (hdisc_iff2 a).mpr (Or.inl ha)
        have hold : a ∈ s.finished → False := by
          intro haf
          rcases hclosure a haf u (DiGraph.mem_succ.mpr hback) with h1 | h1
          · exact hu_nfin h1
          · exact hu_nanc h1
        rcases hreach2 a hadisc with h1 | h1
        · rcases List.mem_cons.mp h1 with h2 | h2
          · exact hu_nfin2 (h2 ▸ ha)
          · rcases (hdisc_iff a).mp h2 with h3 | h3
            · exact hold h3
            · exact hanc_nf2 a (List.mem_cons_of_mem u h3) ha
        · exact hacyc a u hback h1
      refine ⟨⟨?_, ?_, ?_, ?_, ?_, ?_⟩, ?_, ?_, ?_, ?_⟩
      · -- nodup of the extended output
        rw [List.nodup_append]
        refine ⟨hnodup2, List.nodup_singleton u, ?_⟩
        intro a ha hb
        rw [List.mem_singleton] at hb
        exact hu_nfin2 (hb ▸ ha)
      · -- discovered vs finished/ancestors
        intro x
        rw [hdisc_iff2 x]
        simp only [List.mem_append, List.mem_singleton, List.mem_cons]
        tauto
      · -- closure
        intro a ha b hb
        rcases List.mem_append.mp ha with h1 | h1
        · rcases hclosure2 a h1 b hb with h2 | h2
          · exact Or.inl (List.mem_append_left _ h2)
          · rcases List.mem_cons.mp h2 with h3 | h3
            · exact Or.inl (List.mem_append_right _ (by simp [h3]))
            · exact Or.inr h3
        · rw [List.mem_singleton] at h1
          subst h1
          rcases hAclosure b hb with h2 | h2
          · exact Or.inl (List.mem_append_left _ h2)
          · exact Or.inr h2
      · -- ordering
        intro a b ha hb hbfin
        rcases List.mem_append.mp ha with h1 | h1
        · rcases List.mem_append.mp hbfin with h2 | h2
          · rw [List.indexOf_append_of_mem h2, List.indexOf_append_of_mem h1]
            exact horder2 a b h1 hb h2
          · rw [List.mem_singleton] at h2
            subst h2
            exact absurd (DiGraph.mem_succ.mp hb) (hBnoback a h1)
        · rw [List.mem_singleton] at h1
          subst h1
          rcases List.mem_append.mp hbfin with h2 | h2
          · rw [List.indexOf_append_of_mem h2,
              List.indexOf_append_of_not_mem hu_nfin2]
            have hlt := List.indexOf_lt_length.mpr h2
            simp only [List.indexOf_cons_self]
            omega
          · rw [List.mem_singleton] at h2
            subst h2
            exact absurd (DiGraph.mem_succ.mp hb) hself
      · -- ancestors unfinished
        intro x hx
        rw [List.mem_append, List.mem_singleton]
        rintro (h1 | h1)
        · exact hanc_nf2 x (List.mem_cons_of_mem u hx) h1
        · exact hu_nanc (h1 ▸ hx)
      · -- discovered indices valid
        exact hdisc_lt2
      · -- discovered set monotone
        exact fun x hx => hmono2 x (List.mem_cons_of_mem u hx)
      · -- output only appended
        exact ⟨t2 ++ [u], by rw [ht2]; simp⟩
      · -- the visited node is discovered
        exact hmono2 u (List.mem_cons_self u s.discovered)
      · -- new discoveries are reachable from the visited node
        intro x hx
        rcases hreach2 x hx with h1 | h1
        · rcases List.mem_cons.mp h1 with h2 | h2
          · exact Or.inr (h2 ▸ Relation.ReflTransGen.refl)
          · exact Or.inl h2
        · exact Or.inr h1

/-- Adding an edge between valid nodes preserves build well-formedness. -/
theorem GraphWF.add_edge {st : GraphBuild} (hwf : GraphWF st) {a b : Nat}
    (ha : a < st.graph.nodes.length) (hb : b < st.graph.nodes.length) :
    GraphWF { st with graph := st.graph.add_edge a b } := by
  obtain ⟨h1, h2, h3, h4, h5⟩ := hwf
  refine ⟨h1, h2, h3, ?_, h5⟩
  intro e he
  rcases List.mem_append.mp he with h | h
  · exact h4 e h
  · rw [List.mem_singleton] at h
    subst h
    exact ⟨ha, hb⟩

/-- `ensureNode` preserves well-formedness, returns the index of its key,
extends the node list by at most the new key, and leaves edges and the
package map unchanged. -/
theorem ensureNode_spec (st : GraphBuild) (s : String) (hwf : GraphWF st) :
    GraphWF (ensureNode st s).1 ∧
    (ensureNode st s).2 < (ensureNode st s).1.graph.nodes.length ∧
    (ensureNode st s).1.graph.nodes.getD (ensureNode st s).2 "" = s ∧
    (∀ x, x ∈ (ensureNode st s).1.graph.nodes ↔ x ∈ st.graph.nodes ∨ x = s) ∧
    (ensureNode st s).1.graph.edges = st.graph.edges ∧
    (ensureNode st s).1.package_map = st.package_map ∧
    (∃ t, (ensureNode st s).1.graph.nodes = st.graph.nodes ++ t) := by
  obtain ⟨hnodup, hiff, hget, hedges, hpm⟩ := hwf
  cases hlk : st.node_map.lookup s with
  | some i =>
    have h1 := hget s i hlk
    have hsmem : s ∈ st.graph.nodes := (hiff s).mp (by simp [hlk])
    simp only [ensureNode, hlk]
    refine ⟨⟨hnodup, hiff, hget, hedges, hpm⟩, h1.1, h1.2, ?_, by trivial,
      by trivial, ⟨[], by simp⟩⟩
    intro x
    constructor
    · exact fun hx => Or.inl hx
    · rintro (hx | rfl)
      · exact hx
      · exact hsmem
  | none =>
    have hsnot : s ∉ st.graph.nodes := by
      intro hmem
      have hsome := (hiff s).mpr hmem
      rw [hlk] at hsome
      simp at hsome
    simp only [ensureNode, hlk, DiGraph.add_node]
    have hgetD_new : (st.graph.nodes ++ [s]).getD st.graph.nodes.length "" = s := by
      simp [List.getD_eq_getElem?_getD, List.getElem?_concat_length]
    refine ⟨⟨?_, ?_, ?_, ?_, ?_⟩, by simp, hgetD_new, ?_, by trivial,
      by trivial, ⟨[s], by trivial⟩⟩
    · rw [List.nodup_append]
      refine ⟨hnodup, List.nodup_singleton s, ?_⟩
      intro a ha hb
      rw [List.mem_singleton] at hb
      exact hsnot (hb ▸ ha)
    · intro x
      by_cases hx : x = s
      · subst hx
        simp [List.lookup_cons]
      · rw [List.lookup_cons, beq_false_of_ne hx]
        constructor
        · intro hsome
          exact List.mem_append_left _ ((hiff x).mp hsome)
        · intro hmem
          rcases List.mem_append.mp hmem with h | h
          · exact (hiff x).mpr h
          · rw [List.mem_singleton] at h
            exact absurd h hx
    · intro x i hxi
      by_cases hx : x = s
      · subst hx
        rw [List.lookup_cons] at hxi
        simp only [beq_self_eq_true] at hxi
        have hi : i = st.graph.nodes.length := by
          simpa using hxi.symm
        subst hi
        exact ⟨by simp, hgetD_new⟩
      · rw [List.lookup_cons, beq_false_of_ne hx] at hxi
        obtain ⟨hlt, hgd⟩ := hget x i hxi
        refine ⟨by simp; omega, ?_⟩
        rw [← hgd]
        simp [List.getD_eq_getElem?_getD, List.getElem?_append, hlt]
    · intro e he
      obtain ⟨h1, h2⟩ := hedges e he
      constructor <;> simp <;> omega
    · intro ip hip
      obtain ⟨h1, h2⟩ := hpm ip hip
      refine ⟨by simp; omega, ?_⟩
      rw [← h2]
      simp [List.getD_eq_getElem?_getD, List.getElem?_append, h1]
    · intro x
      constructor
      · intro hmem
        rcases List.mem_append.mp hmem with h | h
        · exact Or.inl h
        · rw [List.mem_singleton] at h
          exact Or.inr h
      · rintro (hx | rfl)
        · exact List.mem_append_left _ hx
        · exact List.mem_append_right _ (by simp)

/-- The dependency loop of `processPackage` preserves well-formedness, adds
exactly the dependency keys as new node labels, and leaves the package map
unchanged. -/
theorem processDeps_spec (p_idx : Nat) :
    ∀ (deps : List Dependency) (st : GraphBuild), GraphWF st →
      p_idx < st.graph.nodes.length →
      GraphWF (deps.foldl
        (fun acc dep =>
          let rd := ensureNode acc dep.key
          { rd.1 with graph := rd.1.graph.add_edge p_idx rd.2 }) st) ∧
      (∀ x, x ∈ (deps.foldl
        (fun acc dep =>
          let rd := ensureNode acc dep.key
          { rd.1 with graph := rd.1.graph.add_edge p_idx rd.2 }) st).graph.nodes ↔
        x ∈ st.graph.nodes ∨ x ∈ deps.map Dependency.key) ∧
      ((deps.foldl
        (fun acc dep =>
          let rd := ensureNode acc dep.key
          { rd.1 with graph := rd.1.graph.add_edge p_idx rd.2 }) st).package_map =
        st.package_map) ∧
      (∃ t, (deps.foldl
        (fun acc dep =>
          let rd := ensureNode acc dep.key
          { rd.1 with graph := rd.1.graph.add_edge p_idx rd.2 }) st).graph.nodes =
        st.graph.nodes ++ t) := by
  intro deps
  induction deps with
  | nil =>
    intro st hwf hp
    exact ⟨hwf, by simp, rfl, ⟨[], by simp⟩⟩
  | cons d rest ihd =>
    intro st hwf hp
    obtain ⟨hwfE, hidxlt, hgetD, hmemE, hedgesE, hpmE, ⟨tE, htE⟩⟩ :=
      ensureNode_spec st d.key hwf
    have hplt : p_idx < (ensureNode st d.key).1.graph.nodes.length := by
      rw [htE]
      simp only [List.length_append]
      omega
    have hwf2 : GraphWF { (ensureNode st d.key).1 with
        graph := (ensureNode st d.key).1.graph.add_edge p_idx
          (ensureNode st d.key).2 } :=
      GraphWF.add_edge hwfE hplt hidxlt
    have hp2 : p_idx < ({ (ensureNode st d.key).1 with
        graph := (ensureNode st d.key).1.graph.add_edge p_idx
          (ensureNode st d.key).2 } : GraphBuild).graph.nodes.length := hplt
    obtain ⟨hwfF, hmemF, hpmF, ⟨tF, htF⟩⟩ := ihd _ hwf2 hp2
    rw [List.foldl_cons]
    refine ⟨hwfF, ?_, ?_, ?_⟩
    · intro x
      rw [hmemF x]
      simp only [List.map_cons, List.mem_cons]
      constructor
      · rintro (hx | hx)
        · rcases (hmemE x).mp hx with h | h
          · exact Or.inl h
          · exact Or.inr (Or.inl h)
        · exact Or.inr (Or.inr hx)
      · rintro (hx | hx | hx)
        · exact Or.inl ((hmemE x).mpr (Or.inl hx))
        · exact Or.inl ((hmemE x).mpr (Or.inr hx))
        · exact Or.inr hx
    · rw [hpmF]
      exact hpmE
    · refine ⟨tE ++ tF, ?_⟩
      rw [htF]
      show (ensureNode st d.key).1.graph.nodes ++ tF =
        st.graph.nodes ++ (tE ++ tF)
      rw [htE, List.append_assoc]

/-- `processPackage` preserves well-formedness and adds exactly the package
key and its dependency keys as node labels. -/
theorem processPackage_spec (st : GraphBuild) (p : Package) (hwf : GraphWF st) :
    GraphWF (processPackage st p) ∧
    (∀ x, x ∈ (processPackage st p).graph.nodes ↔
      x ∈ st.graph.nodes ∨ x = p.key ∨ x ∈ p.dependencies.map Dependency.key) ∧
    (∃ t, (processPackage st p).graph.nodes = st.graph.nodes ++ t) := by
  obtain ⟨hwfE, hidxlt, hgetD, hmemE, hedgesE, hpmE, ⟨tE, htE⟩⟩ :=
    ensureNode_spec st p.key hwf
  have hwf2 : GraphWF { (ensureNode st p.key).1 with
      package_map := ((ensureNode st p.key).2, p) ::
        (ensureNode st p.key).1.package_map } := by
    obtain ⟨h1, h2, h3, h4, h5⟩ := hwfE
    refine ⟨h1, h2, h3, h4, ?_⟩
    intro ip hip
    rcases List.mem_cons.mp hip with h | h
    · subst h
      exact ⟨hidxlt, hgetD⟩
    · exact h5 ip h
  obtain ⟨hwfF, hmemF, hpmF, ⟨tF, htF⟩⟩ :=
    processDeps_spec (ensureNode st p.key).2 p.dependencies
      { (ensureNode st p.key).1 with
        package_map := ((ensureNode st p.key).2, p) ::
          (ensureNode st p.key).1.package_map } hwf2 hidxlt
  have heq : processPackage st p =
      p.dependencies.foldl
        (fun acc dep =>
          let rd := ensureNode acc dep.key
          { rd.1 with graph := rd.1.graph.add_edge (ensureNode st p.key).2 rd.2 })
        { (ensureNode st p.key).1 with
          package_map := ((ensureNode st p.key).2, p) ::
            (ensureNode st p.key).1.package_map } := rfl
  rw [heq]
  refine ⟨hwfF, ?_, ?_⟩
  · intro x
    rw [hmemF x]
    have hm2 : x ∈ ({ (ensureNode st p.key).1 with
        package_map := ((ensureNode st p.key).2, p) ::
          (ensureNode st p.key).1.package_map } : GraphBuild).graph.nodes ↔
        x ∈ st.graph.nodes ∨ x = p.key := hmemE x
    rw [hm2]
    tauto
  · refine ⟨tE ++ tF, ?_⟩
    rw [htF]
    show (ensureNode st p.key).1.graph.nodes ++ tF =
      st.graph.nodes ++ (tE ++ tF)
    rw [htE, List.append_assoc]

/-- The package fold of `make_dependency_graph` builds a well-formed state
whose node labels are exactly the mentioned keys. -/
theorem processPackages_spec :
    ∀ (packages : List Package) (st : GraphBuild), GraphWF st →
      GraphWF (packages.foldl processPackage st) ∧
      (∀ x, x ∈ (packages.foldl processPackage st).graph.nodes ↔
        x ∈ st.graph.nodes ∨ x ∈ allKeys packages) := by
  intro packages
  induction packages with
  | nil =>
    intro st hwf
    exact ⟨hwf, by simp [allKeys]⟩
  | cons p ps ihp =>
    intro st hwf
    obtain ⟨hwf1, hmem1, _⟩ := processPackage_spec st p hwf
    obtain ⟨hwf2, hmem2⟩ := ihp (processPackage st p) hwf1
    rw [List.foldl_cons]
    refine ⟨hwf2, ?_⟩
    intro x
    rw [hmem2 x, hmem1 x]
    simp only [allKeys, List.mem_cons, List.mem_append]
    tauto

/-- The empty build state is well-formed. -/
theorem graphBuild_empty_wf : GraphWF ⟨⟨[], []⟩, [], []⟩ := by
  refine ⟨List.nodup_nil, ?_, ?_, ?_, ?_⟩
  · intro s
    simp [List.lookup]
  · intro s i h
    simp [List.lookup] at h
  · intro e he
    simp at he
  · intro ip hip
    simp at hip

/-- `make_dependency_graph` produces duplicate-free nodes — one per distinct
mentioned `{name}-{version}` key — valid edges, a package map labelling each
mapped index with the package key, and a root index labelled by the root
name when the lookup succeeds. -/
theorem make_dependency_graph_spec (packages : List Package)
    (root_name : String) :
    (make_dependency_graph packages root_name).1.nodes.Nodup ∧
    (∀ x, x ∈ (make_dependency_graph packages root_name).1.nodes ↔
      x ∈ allKeys packages) ∧
    (∀ e ∈ (make_dependency_graph packages root_name).1.edges,
      e.1 < (make_dependency_graph packages root_name).1.nodes.length ∧
      e.2 < (make_dependency_graph packages root_name).1.nodes.length) ∧
    (∀ ip ∈ (make_dependency_graph packages root_name).2.1,
      ip.1 < (make_dependency_graph packages root_name).1.nodes.length ∧
      (make_dependency_graph packages root_name).1.nodes.getD ip.1 "" =
        ip.2.key) ∧
    (∀ r, (make_dependency_graph packages root_name).2.2 = some r →
      r < (make_dependency_graph packages root_name).1.nodes.length ∧
      (make_dependency_graph packages root_name).1.nodes.getD r "" =
        root_name) := by
  obtain ⟨⟨hnodup, hiff, hget, hedges, hpm⟩, hmem⟩ :=
    processPackages_spec packages ⟨⟨[], []⟩, [], []⟩ graphBuild_empty_wf
  have heq : make_dependency_graph packages root_name =
      ((packages.foldl processPackage ⟨⟨[], []⟩, [], []⟩).graph,
       (packages.foldl processPackage ⟨⟨[], []⟩, [], []⟩).package_map,
       (packages.foldl processPackage ⟨⟨[], []⟩, [], []⟩).node_map.lookup
         root_name) := rfl
  rw [heq]
  refine ⟨hnodup, ?_, hedges, hpm, ?_⟩
  · intro x
    rw [hmem x]
    simp
  · intro r hr
    exact hget root_name r hr

/-- Specification of the post-order traversal from a valid root in an
acyclic graph: each node appears at most once; a node is visited exactly
when it is reachable from the root; and every edge out of a visited node
points to a node that finished strictly earlier. -/
theorem dfsPostOrder_spec (g : DiGraph)
    (hedge : ∀ e ∈ g.edges, e.2 < g.nodes.length) (hacyc : g.Acyclic)
    (root : Nat) (hroot : root < g.nodes.length) :
    (g.dfsPostOrder root).Nodup ∧
    (∀ x, x ∈ g.dfsPostOrder root ↔ g.Reach root x) ∧
    (∀ a b, g.Edge a b → a ∈ g.dfsPostOrder root →
      b ∈ g.dfsPostOrder root ∧
      (g.dfsPostOrder root).indexOf b < (g.dfsPostOrder root).indexOf a) := by
  have hinv0 : DfsInv g [] ⟨[], []⟩ := by
    refine ⟨List.nodup_nil, by simp, ?_, ?_, by simp, by simp⟩
    · intro a ha
      simp at ha
    · intro a b ha
      simp at ha
  have hfuel0 : undisc g (⟨[], []⟩ : DfsState) ≤ g.nodes.length := by
    unfold undisc
    simp
  obtain ⟨hinv, _, _, hrootdisc, hreach⟩ :=
    dfsVisit_spec g hedge hacyc g.nodes.length root [] ⟨[], []⟩ hroot
      (by simp) hinv0 hfuel0
  obtain ⟨hnodup, hdisc_iff, hclosure, horder, _, _⟩ := hinv
  have hfin_eq : g.dfsPostOrder root =
      (dfsVisit g g.nodes.length root ⟨[], []⟩).finished := rfl
  rw [hfin_eq]
  have hrootfin : root ∈ (dfsVisit g g.nodes.length root ⟨[], []⟩).finished := by
    rcases (hdisc_iff root).mp hrootdisc with h | h
    · exact h
    · simp at h
  refine ⟨hnodup, ?_, ?_⟩
  · intro x
    constructor
    · intro hx
      have hxd := (hdisc_iff x).mpr (Or.inl hx)
      rcases hreach x hxd with h1 | h1
      · simp at h1
      · exact h1
    · intro hx
      induction hx with
      | refl => exact hrootfin
      | tail _ he ihx =>
        rcases hclosure _ ihx _ (DiGraph.mem_succ.mpr he) with h1 | h1
        · exact h1
        · simp at h1
  · intro a b hab ha
    have hb : b ∈ (dfsVisit g g.nodes.length root ⟨[], []⟩).finished := by
      rcases hclosure a ha b (DiGraph.mem_succ.mpr hab) with h1 | h1
      · exact h1
      · simp at h1
    exact ⟨hb, horder a b ha (DiGraph.mem_succ.mpr hab) hb⟩

/-! ## C3: failure propagation in the chain-creation loop -/

/-- Either modelled failure of `read_policy` names the unreadable package
key in its error frames. -/
theorem read_policy_error_names (chain : AuditChain) (fs : Fs) (key : String)
    (e : ErrMsg) (h : chain.read_policy fs key = .error e) : key ∈ e := by
  unfold AuditChain.read_policy at h
  cases hlk : chain.crate_policies.lookup key with
  | none =>
    rw [hlk] at h
    injection h with h2
    rw [← h2]
    simp
  | some path =>
    simp only [hlk] at h
    cases hfl : fs.lookup path with
    | none =>
      simp only [hfl] at h
      injection h with h2
      rw [← h2]
      simp
    | some entry =>
      simp only [hfl] at h
      cases entry with
      | file p =>
        exact absurd h (by simp)
      | dir =>
        injection h with h2
        rw [← h2]
        simp

/-- `collect_dependency_sinks` fails at the first unreadable dependency,
wrapping its error with the context frame from the source. -/
theorem collect_error_at (chain : AuditChain) (fs : Fs) (d : Dependency)
    (drest : List Dependency) (e : ErrMsg) :
    ∀ dpre : List Dependency,
    (∀ d2 ∈ dpre, ∃ pol, chain.read_policy fs d2.key = .ok pol) →
    chain.read_policy fs d.key = .error e →
    collect_dependency_sinks chain fs (dpre ++ d :: drest) =
      .error
        ("couldnt read dependency policy file (maybe created it out of order)"
          :: e) := by
  intro dpre
  induction dpre with
  | nil =>
    intro _ hfail
    simp [collect_dependency_sinks, hfail]
  | cons d2 rest ih =>
    intro hok hfail
    obtain ⟨pol, hp⟩ := hok d2 (List.mem_cons_self d2 rest)
    have hrest := ih (fun x hx => hok x (List.mem_cons_of_mem d2 hx)) hfail
    simp [collect_dependency_sinks, hp, hrest]

/-- Unpacking a successful `make_new_policy` call: the returned path is the
policy path of the package, that path now holds a policy file, and every
other path is untouched. -/
theorem make_new_policy_ok (chain : AuditChain) (fs : Fs) (package : Package)
    (rn : String) (args : CreateArgs) (dl : Package → Except ErrMsg String)
    (sy : String → List CanonicalPath → Except ErrMsg PolicyFile)
    (fs1 : Fs) (pth : String)
    (h : make_new_policy chain fs package rn args dl sy = (fs1, .ok pth)) :
    pth = policy_path_of args.policy_path package.key ∧
    (∃ pol, fs1.lookup pth = some (.file pol)) ∧
    (∀ q, q ≠ pth → fs1.lookup q = fs.lookup q) := by
  simp only [make_new_policy] at h
  cases hdl : (if package.key == rn then Except.ok args.crate_path
      else dl package) with
  | error e =>
    simp only [hdl] at h
    exact absurd h (by simp)
  | ok pp =>
    simp only [hdl] at h
    by_cases hdir :
        fs.lookup (policy_path_of args.policy_path package.key) =
          some FsEntry.dir
    · rw [if_pos hdir] at h
      exact absurd h (by simp)
    · rw [if_neg hdir] at h
      have hfin : ∀ f0 : Fs,
          (∀ q, q ≠ policy_path_of args.policy_path package.key →
            f0.lookup q = fs.lookup q) →
          (match collect_dependency_sinks chain f0 package.dependencies with
            | Except.error e => (f0, Except.error e)
            | Except.ok sinks =>
              match sy pp sinks with
              | Except.error e => (f0, Except.error e)
              | Except.ok policy =>
                (fsSet f0 (policy_path_of args.policy_path package.key)
                    (FsEntry.file policy),
                 Except.ok (policy_path_of args.policy_path package.key))) =
            (fs1, Except.ok pth) →
          pth = policy_path_of args.policy_path package.key ∧
          (∃ pol, fs1.lookup pth = some (.file pol)) ∧
          (∀ q, q ≠ pth → fs1.lookup q = fs.lookup q) := by
        intro f0 hframe hfold
        cases hcol : collect_dependency_sinks chain f0 package.dependencies with
        | error e =>
          simp only [hcol] at hfold
          exact absurd hfold (by simp)
        | ok sinks =>
          simp only [hcol] at hfold
          cases hsyn : sy pp sinks with
          | error e =>
            simp only [hsyn] at hfold
            exact absurd hfold (by simp)
          | ok policy =>
            simp only [hsyn] at hfold
            rw [Prod.mk.injEq] at hfold
            obtain ⟨h1, h2⟩ := hfold
            injection h2 with h2
            subst h2
            refine ⟨rfl, ?_, ?_⟩
            · rw [← h1]
              exact ⟨policy, fsSet_lookup_self _ _ _⟩
            · intro q hq
              rw [← h1, fsSet_lookup_ne _ _ _ _ hq]
              exact hframe q hq
      cases hfl : fs.lookup (policy_path_of args.policy_path package.key) with
      | none =>
        rw [hfl] at h
        exact hfin fs (fun _ _ => rfl) h
      | some entry =>
        cases entry with
        | dir => exact absurd hfl hdir
        | file pol0 =>
          rw [hfl] at h
          cases hforce : args.force_overwrite with
          | false =>
            rw [hforce] at h
            simp only [Bool.false_eq_true, if_false] at h
            exact absurd h (by simp)
          | true =>
            rw [hforce] at h
            simp only [if_true] at h
            exact hfin
              (fsRemove fs (policy_path_of args.policy_path package.key))
              (fun q hq => fsRemove_lookup_ne _ _ _ hq) h

/-- The chain loop over a concatenation: process the first part; stop at
its error, or continue the second part from its final state. -/
theorem chain_loop_append (pm : List (Nat × Package)) (rn : String)
    (args : CreateArgs) (dl : Package → Except ErrMsg String)
    (sy : String → List CanonicalPath → Except ErrMsg PolicyFile) :
    ∀ (l1 l2 : List Nat) (st : ChainState),
      chain_loop pm rn args dl sy (l1 ++ l2) st =
        (match chain_loop pm rn args dl sy l1 st with
          | (st1, none) => chain_loop pm rn args dl sy l2 st1
          | (st1, some e) => (st1, some e)) := by
  intro l1
  induction l1 with
  | nil =>
    intro l2 st
    simp [chain_loop]
  | cons n rest ih =>
    intro l2 st
    cases hpk : pm.lookup n with
    | none =>
      have h1 : chain_loop pm rn args dl sy ((n :: rest) ++ l2) st =
          (st, some ["no package data for graph node"]) := by
        simp [chain_loop, hpk]
      have h2 : chain_loop pm rn args dl sy (n :: rest) st =
          (st, some ["no package data for graph node"]) := by
        simp [chain_loop, hpk]
      rw [h1, h2]
    | some package =>
      cases hmk : make_new_policy st.chain st.fs package rn args dl sy with
      | mk fs1 res =>
        cases res with
        | ok pth =>
          have h1 : chain_loop pm rn args dl sy ((n :: rest) ++ l2) st =
              chain_loop pm rn args dl sy (rest ++ l2)
                { fs := fs1
                  chain := st.chain.add_crate_policy package pth
                  trace := st.trace ++ [(package.key, pth)] } := by
            simp [chain_loop, hpk, hmk]
          have h2 : chain_loop pm rn args dl sy (n :: rest) st =
              chain_loop pm rn args dl sy rest
                { fs := fs1
                  chain := st.chain.add_crate_policy package pth
                  trace := st.trace ++ [(package.key, pth)] } := by
            simp [chain_loop, hpk, hmk]
          rw [h1, h2, ih l2 _]
        | error e =>
          have h1 : chain_loop pm rn args dl sy ((n :: rest) ++ l2) st =
              ({ st with fs := fs1 },
               some ("Audit chain creation failed" :: e)) := by
            simp [chain_loop, hpk, hmk]
          have h2 : chain_loop pm rn args dl sy (n :: rest) st =
              ({ st with fs := fs1 },
               some ("Audit chain creation failed" :: e)) := by
            simp [chain_loop, hpk, hmk]
          rw [h1, h2]

/-- Every policy file saved by the loop is still a policy file on disk in
the state the loop hands on, as long as it only makes successful steps. -/
theorem chain_loop_trace_files (pm : List (Nat × Package)) (rn : String)
    (args : CreateArgs) (dl : Package → Except ErrMsg String)
    (sy : String → List CanonicalPath → Except ErrMsg PolicyFile) :
    ∀ (l : List Nat) (st : ChainState),
      TraceFiles st → (chain_loop pm rn args dl sy l st).2 = none →
      TraceFiles (chain_loop pm rn args dl sy l st).1 := by
  intro l
  induction l with
  | nil =>
    intro st htf _
    exact htf
  | cons n rest ih =>
    intro st htf hres
    cases hpk : pm.lookup n with
    | none =>
      have h1 : chain_loop pm rn args dl sy (n :: rest) st =
          (st, some ["no package data for graph node"]) := by
        simp [chain_loop, hpk]
      rw [h1] at hres
      simp at hres
    | some package =>
      cases hmk : make_new_policy st.chain st.fs package rn args dl sy with
      | mk fs1 res =>
        cases res with
        | error e =>
          have h1 : chain_loop pm rn args dl sy (n :: rest) st =
              ({ st with fs := fs1 },
               some ("Audit chain creation failed" :: e)) := by
            simp [chain_loop, hpk, hmk]
          rw [h1] at hres
          simp at hres
        | ok pth =>
          have h1 : chain_loop pm rn args dl sy (n :: rest) st =
              chain_loop pm rn args dl sy rest
                { fs := fs1
                  chain := st.chain.add_crate_policy package pth
                  trace := st.trace ++ [(package.key, pth)] } := by
            simp [chain_loop, hpk, hmk]
          rw [h1] at hres ⊢
          obtain ⟨_, ⟨pol1, hpol1⟩, hframe⟩ :=
            make_new_policy_ok st.chain st.fs package rn args dl sy fs1 pth hmk
          have htf2 : TraceFiles
              { fs := fs1
                chain := st.chain.add_crate_policy package pth
                trace := st.trace ++ [(package.key, pth)] } := by
            intro kp hkp
            rcases List.mem_append.mp hkp with hold | hnew
            · obtain ⟨pol, hpol⟩ := htf kp hold
              by_cases hq : kp.2 = pth
              · exact ⟨pol1, by rw [hq]; exact hpol1⟩
              · exact ⟨pol, by
                  show List.lookup kp.2 fs1 = some (FsEntry.file pol)
                  rw [hframe kp.2 hq]
                  exact hpol⟩
            · rw [List.mem_singleton] at hnew
              subst hnew
              exact ⟨pol1, hpol1⟩
          exact ih _ htf2 hres

/-- The loop saves policies in visitation order: the keys of its saved
trace extend the incoming trace by a prefix of the visited keys, and by all
of them when the loop succeeds. -/
theorem chain_loop_trace_order (pm : List (Nat × Package)) (rn : String)
    (args : CreateArgs) (dl : Package → Except ErrMsg String)
    (sy : String → List CanonicalPath → Except ErrMsg PolicyFile)
    (keyf : Nat → String)
    (hpm : ∀ i p, pm.lookup i = some p → p.key = keyf i) :
    ∀ (l : List Nat) (st : ChainState),
      (∃ k, (chain_loop pm rn args dl sy l st).1.trace.map Prod.fst =
        st.trace.map Prod.fst ++ (l.take k).map keyf) ∧
      ((chain_loop pm rn args dl sy l st).2 = none →
        (chain_loop pm rn args dl sy l st).1.trace.map Prod.fst =
          st.trace.map Prod.fst ++ l.map keyf) := by
  intro l
  induction l with
  | nil =>
    intro st
    exact ⟨⟨0, by simp [chain_loop]⟩, fun _ => by simp [chain_loop]⟩
  | cons n rest ih =>
    intro st
    cases hpk : pm.lookup n with
    | none =>
      constructor
      · exact ⟨0, by simp [chain_loop, hpk]⟩
      · intro hres
        simp [chain_loop, hpk] at hres
    | some package =>
      cases hmk : make_new_policy st.chain st.fs package rn args dl sy with
      | mk fs1 res =>
        cases res with
        | error e =>
          constructor
          · exact ⟨0, by simp [chain_loop, hpk, hmk]⟩
          · intro hres
            simp [chain_loop, hpk, hmk] at hres
        | ok pth =>
          have hkey : package.key = keyf n := hpm n package hpk
          have heq : chain_loop pm rn args dl sy (n :: rest) st =
              chain_loop pm rn args dl sy rest
                { fs := fs1
                  chain := st.chain.add_crate_policy package pth
                  trace := st.trace ++ [(package.key, pth)] } := by
            simp [chain_loop, hpk, hmk]
          obtain ⟨⟨k, hk⟩, hsucc⟩ := ih
            { fs := fs1
              chain := st.chain.add_crate_policy package pth
              trace := st.trace ++ [(package.key, pth)] }
          constructor
          · refine ⟨k + 1, ?_⟩
            rw [heq, hk]
            simp [hkey]
          · intro hres
            rw [heq] at hres ⊢
            rw [hsucc hres]
            simp [hkey]

/-- A successful association-list lookup is a membership witness. -/
theorem lookup_mem_nat {β : Type} {l : List (Nat × β)} {a : Nat} {b : β}
    (h : List.lookup a l = some b) : (a, b) ∈ l := by
  induction l with
  | nil => simp [List.lookup] at h
  | cons kv rest ih =>
    obtain ⟨k, v⟩ := kv
    rw [List.lookup_cons] at h
    by_cases hak : a = k
    · subst hak
      simp only [beq_self_eq_true] at h
      injection h with h2
      subst h2
      exact List.mem_cons_self _ _
    · rw [beq_false_of_ne hak] at h
      exact List.mem_cons_of_mem _ (ih h)

/-- C2: the dependency graph has exactly one node per distinct
`{name}-{version}` key; the post-order traversal visits each node at most
once (so a diamond's shared dependency is visited exactly once), visits
exactly the nodes reachable from the root, and finishes every edge target
strictly before its source; and the chain-creation run saves policies
exactly in visitation order, so a dependency's policy is persisted strictly
before that of any package depending on it. -/
theorem chain_graph_traversal_spec (packages : List Package)
    (root_name : String) (r : Nat)
    (hroot : (make_dependency_graph packages root_name).2.2 = some r)
    (hacyc : (make_dependency_graph packages root_name).1.Acyclic) :
    (make_dependency_graph packages root_name).1.nodes.Nodup ∧
    (∀ x, x ∈ (make_dependency_graph packages root_name).1.nodes ↔
      x ∈ allKeys packages) ∧
    ((make_dependency_graph packages root_name).1.dfsPostOrder r).Nodup ∧
    (∀ x, x ∈ (make_dependency_graph packages root_name).1.dfsPostOrder r ↔
      (make_dependency_graph packages root_name).1.Reach r x) ∧
    (∀ a b, (make_dependency_graph packages root_name).1.Edge a b →
      a ∈ (make_dependency_graph packages root_name).1.dfsPostOrder r →
      b ∈ (make_dependency_graph packages root_name).1.dfsPostOrder r ∧
      ((make_dependency_graph packages root_name).1.dfsPostOrder r).indexOf b <
        ((make_dependency_graph packages root_name).1.dfsPostOrder r).indexOf
          a) ∧
    (∀ (args : CreateArgs) (dl : Package → Except ErrMsg String)
        (sy : String → List CanonicalPath → Except ErrMsg PolicyFile)
        (fs0 : Fs),
      (∃ k,
        (create_new_audit_chain packages root_name args fs0 dl
            sy).1.trace.map Prod.fst =
          (((make_dependency_graph packages root_name).1.dfsPostOrder
            r).take k).map
            (fun i =>
              (make_dependency_graph packages root_name).1.nodes.getD i "")) ∧
      ((create_new_audit_chain packages root_name args fs0 dl sy).2 = none →
        (create_new_audit_chain packages root_name args fs0 dl
            sy).1.trace.map Prod.fst =
          ((make_dependency_graph packages root_name).1.dfsPostOrder r).map
            (fun i =>
              (make_dependency_graph packages root_name).1.nodes.getD i ""))) := by
  obtain ⟨hnodup, hmem, hedges, hpm, hrootspec⟩ :=
    make_dependency_graph_spec packages root_name
  obtain ⟨hrlt, _⟩ := hrootspec r hroot
  have hedges2 : ∀ e ∈ (make_dependency_graph packages root_name).1.edges,
      e.2 < (make_dependency_graph packages root_name).1.nodes.length :=
    fun e he => (hedges e he).2
  obtain ⟨hordN, hordMem, hordEdge⟩ :=
    dfsPostOrder_spec (make_dependency_graph packages root_name).1 hedges2
      hacyc r hrlt
  refine ⟨hnodup, hmem, hordN, hordMem, hordEdge, ?_⟩
  intro args dl sy fs0
  have hkeyf : ∀ i p,
      (make_dependency_graph packages root_name).2.1.lookup i = some p →
      p.key = (make_dependency_graph packages root_name).1.nodes.getD i "" :=
    fun i p hl => (hpm (i, p) (lookup_mem_nat hl)).2.symm
  have hcreate : create_new_audit_chain packages root_name args fs0 dl sy =
      chain_loop (make_dependency_graph packages root_name).2.1 root_name
        args dl sy
        ((make_dependency_graph packages root_name).1.dfsPostOrder r)
        { fs := fs0
          chain := AuditChain.new args.manifest_path args.crate_path
          trace := [] } := by
    simp [create_new_audit_chain, hroot]
  obtain ⟨⟨k, hk⟩, hsucc⟩ :=
    chain_loop_trace_order (make_dependency_graph packages root_name).2.1
      root_name args dl sy
      (fun i => (make_dependency_graph packages root_name).1.nodes.getD i "")
      hkeyf
      ((make_dependency_graph packages root_name).1.dfsPostOrder r)
      { fs := fs0
        chain := AuditChain.new args.manifest_path args.crate_path
        trace := [] }
  constructor
  · refine ⟨k, ?_⟩
    rw [hcreate, hk]
    simp
  · intro hres
    rw [hcreate] at hres ⊢
    rw [hsucc hres]
    simp

/-- C2 witness: the diamond lockfile (root depends on b and c, which both
depend on d).  The root lookup succeeds, the graph is acyclic, the
traversal is duplicate-free, and the shared dependency d (node 3) is
visited exactly once. -/
theorem chain_graph_traversal_witness :
    ((make_dependency_graph diamondPackages "root-1.0.0").2.2 = some 0) ∧
    ((make_dependency_graph diamondPackages "root-1.0.0").1.Acyclic) ∧
    ((make_dependency_graph diamondPackages "root-1.0.0").1.dfsPostOrder
      0).Nodup ∧
    ((make_dependency_graph diamondPackages "root-1.0.0").1.dfsPostOrder
      0).count 3 = 1 := by
  have h1 : (make_dependency_graph diamondPackages "root-1.0.0").2.2 =
      some 0 := by decide
  have h2 : ∀ e ∈ (make_dependency_graph diamondPackages "root-1.0.0").1.edges,
      e.1 < e.2 := by decide
  have hac := DiGraph.acyclic_of_edges_lt _ h2
  have h := chain_graph_traversal_spec diamondPackages "root-1.0.0" 0 h1 hac
  exact ⟨h1, hac, h.2.2.1, by decide⟩

/-- C3: when reading the persisted policy of a direct dependency fails
during sink collection for a node whose own checks pass, the synthesis of
that node fails with the context frame naming the unreadable dependency,
the whole chain-creation run aborts with the wrapping error, and the
filesystem at the abort — including every policy file written by the
earlier nodes of the run — is exactly the state reached before the failing
node (no rollback). -/
theorem chain_policy_read_failure_spec (pm : List (Nat × Package))
    (rn : String) (args : CreateArgs) (dl : Package → Except ErrMsg String)
    (sy : String → List CanonicalPath → Except ErrMsg PolicyFile)
    (pre rest : List Nat) (a : Nat) (st0 st1 : ChainState) (pkg : Package)
    (pp : String) (dpre drest : List Dependency) (d : Dependency) (e : ErrMsg)
    (hpre : chain_loop pm rn args dl sy pre st0 = (st1, none))
    (hpkg : pm.lookup a = some pkg)
    (hdl : (if pkg.key == rn then Except.ok args.crate_path else dl pkg) =
      .ok pp)
    (hnd : st1.fs.lookup (policy_path_of args.policy_path pkg.key) = none)
    (hdeps : pkg.dependencies = dpre ++ d :: drest)
    (hok : ∀ d2 ∈ dpre, ∃ pol, st1.chain.read_policy st1.fs d2.key = .ok pol)
    (hfail : st1.chain.read_policy st1.fs d.key = .error e)
    (hst0 : st0.trace = []) :
    chain_loop pm rn args dl sy (pre ++ a :: rest) st0 =
      (st1, some ("Audit chain creation failed" ::
        "couldnt read dependency policy file (maybe created it out of order)"
        :: e)) ∧
    d.key ∈ e ∧
    (∀ kp ∈ st1.trace, ∃ pol, st1.fs.lookup kp.2 = some (.file pol)) := by
  have hcol : collect_dependency_sinks st1.chain st1.fs pkg.dependencies =
      .error
        ("couldnt read dependency policy file (maybe created it out of order)"
          :: e) := by
    rw [hdeps]
    exact collect_error_at st1.chain st1.fs d drest e dpre hok hfail
  have hmk : make_new_policy st1.chain st1.fs pkg rn args dl sy =
      (st1.fs,
       .error
        ("couldnt read dependency policy file (maybe created it out of order)"
          :: e)) := by
    simp only [make_new_policy]
    rw [hdl]
    simp [hnd, hcol]
  have hstep : chain_loop pm rn args dl sy (a :: rest) st1 =
      (st1, some ("Audit chain creation failed" ::
        "couldnt read dependency policy file (maybe created it out of order)"
        :: e)) := by
    simp [chain_loop, hpkg, hmk]
  have hrun : chain_loop pm rn args dl sy (pre ++ a :: rest) st0 =
      chain_loop pm rn args dl sy (a :: rest) st1 := by
    rw [chain_loop_append pm rn args dl sy pre (a :: rest) st0, hpre]
  have htf1 : TraceFiles st1 := by
    have htf0 : TraceFiles st0 := by
      intro kp hkp
      rw [hst0] at hkp
      cases hkp
    have hres0 : (chain_loop pm rn args dl sy pre st0).2 = none := by
      rw [hpre]
    have := chain_loop_trace_files pm rn args dl sy pre st0 htf0 hres0
    rw [hpre] at this
    exact this
  exact ⟨by rw [hrun, hstep], read_policy_error_names _ _ _ _ hfail, htf1⟩

/-- C3 witness: a one-node run whose single package depends on a crate with
no saved policy aborts with the wrapped error naming that dependency. -/
theorem chain_policy_read_failure_witness :
    chain_loop [(0, ⟨"parent", "1.0.0", [⟨"miss", "1.0.0"⟩]⟩)] "parent-1.0.0"
        exampleArgs okDownload okSynth [0]
        ⟨[], AuditChain.new "man/chain.manifest" "crate", []⟩ =
      (⟨[], AuditChain.new "man/chain.manifest" "crate", []⟩,
       some ["Audit chain creation failed",
         "couldnt read dependency policy file (maybe created it out of order)",
         "no policy saved for crate", "miss-1.0.0"]) ∧
    "miss-1.0.0" ∈
      (["no policy saved for crate", "miss-1.0.0"] : List String) := by
  have h := chain_policy_read_failure_spec
    [(0, ⟨"parent", "1.0.0", [⟨"miss", "1.0.0"⟩]⟩)] "parent-1.0.0"
    exampleArgs okDownload okSynth [] [] 0
    ⟨[], AuditChain.new "man/chain.manifest" "crate", []⟩
    ⟨[], AuditChain.new "man/chain.manifest" "crate", []⟩
    ⟨"parent", "1.0.0", [⟨"miss", "1.0.0"⟩]⟩ "crate" [] []
    ⟨"miss", "1.0.0"⟩ ["no policy saved for crate", "miss-1.0.0"]
    rfl rfl rfl rfl rfl (fun d2 h2 => absurd h2 (List.not_mem_nil d2)) rfl rfl
  exact ⟨h.1, h.2.1⟩
